import Mathlib

/-!
# WaveSort: a shallow embedding of `wavesort_rust` (src/src/main.rs)

The Rust module `wavesort_rust` sorts a mutable slice of `i32` in place.
We embed the slice as a pair of a length `n : Nat` and a store `Nat → Int`;
every element access of the Rust code (including the bounds-unchecked and
raw-pointer accesses) is modelled by a checked read/write in an error monad,
so that an out-of-bounds access or a `usize` subtraction underflow becomes an
explicit fault instead of silently producing a value.  Loops whose iteration
count is not structurally obvious take an explicit fuel argument; running out
of fuel is a third, separate fault.  `usize` arithmetic is modelled on `Nat`:
for any real Rust slice (`4 * len ≤ isize::MAX`) none of the additions,
shifts or multiplications in this code can wrap, so plain `Nat` arithmetic is
exact; the single deliberately wrapping operation of the source
(`r.wrapping_sub(m)` in `block_swap`) is modelled explicitly.
-/

namespace WaveSort

/-- Faults of a run: out-of-bounds access (or slice/rotation panic),
`usize` subtraction underflow, or fuel exhaustion. -/
inductive Fault where
  | oob : Fault
  | uflow : Fault
  | fuelOut : Fault
deriving DecidableEq, Repr

/-- The computation monad: either a result or a fault. -/
abbrev M (α : Type) : Type := Except Fault α

/-- The store backing a slice: unboundedly indexed; only the first `n`
cells are the array, reads and writes are checked against `n`. -/
abbrev A : Type := Nat → Int

/-- `const INSERTION_THRESHOLD: usize = 32;` -/
def insertionThreshold : Nat := 32

/-- Checked read `arr[i]` of a slice of length `n`. -/
def rd (n : Nat) (a : A) (i : Nat) : M Int :=
  if i < n then pure (a i) else .error .oob

/-- Checked write `arr[i] = v` of a slice of length `n`. -/
def wr (n : Nat) (a : A) (i : Nat) (v : Int) : M A :=
  if i < n then pure (Function.update a i v) else .error .uflow

/-- Checked `usize` subtraction `x - y`. -/
def csub (x y : Nat) : M Nat :=
  if y ≤ x then pure (x - y) else .error .uflow

/-- `r.wrapping_sub(m)` on `usize` (exact for operands below `2 ^ 64`). -/
def wsub (x y : Nat) : Nat :=
  if y ≤ x then x - y else x + 2 ^ 64 - y

/-- Relative checked read `slice[j]` where the slice is `arr[lo .. lo+len)`. -/
def rdR (len lo : Nat) (a : A) (j : Nat) : M Int :=
  if j < len then pure (a (lo + j)) else .error .oob

/-- Relative checked write `slice[j] = v` where the slice is `arr[lo .. lo+len)`. -/
def wrR (len lo : Nat) (a : A) (j : Nat) (v : Int) : M A :=
  if j < len then pure (Function.update a (lo + j) v) else .error .oob

/-- The inner `while j > 0 && arr[j-1] > key { arr[j] = arr[j-1]; j -= 1 }`
loop of `insertion_sort`, returning the store and the final `j`.
The `Nat` argument is the current value of `j` (structural recursion). -/
def insShift (len lo : Nat) (key : Int) : A → Nat → M (A × Nat)
  | a, 0 => pure (a, 0)
  | a, j + 1 => do
      let v ← rdR len lo a j
      if key < v then do
        let a' ← wrR len lo a (j + 1) v
        insShift len lo key a' j
      else
        pure (a, j + 1)

/-- One iteration of `insertion_sort`'s outer `for` loop at index `i`:
`key = arr[i]`, shift, `arr[j] = key`. -/
def insStep (len lo : Nat) (a : A) (i : Nat) : M A := do
  let key ← rdR len lo a i
  let r ← insShift len lo key a i
  wrR len lo r.1 r.2 key

/-- `for i in 1..len` of `insertion_sort`: `k` counts the remaining
iterations (the loop runs for `i = 1, …, len - 1`, so `k = len - 1` at
entry makes the count exact). -/
def insLoop (len lo : Nat) : A → Nat → Nat → M A
  | a, 0, _ => pure a
  | a, k + 1, i => do
      let a' ← insStep len lo a i
      insLoop len lo a' k (i + 1)

/-- `insertion_sort(&mut arr[s..=e])`: taking the subslice panics unless
`s ≤ e + 1 ∧ e < n`; then the slice has length `e + 1 - s` and the
function body runs (`if len < 2 { return }` and the `for` loop). -/
def insRange (n : Nat) (a : A) (s e : Nat) : M A :=
  if s ≤ e + 1 ∧ e < n then
    let len := e + 1 - s
    if len < 2 then pure a else insLoop len s a (len - 1) 1
  else .error .oob

/-- `partition`'s first inner loop: advance `i` while `arr[i] < pivot`;
`i += 1; if i == j return i`.  `.inl i` means the loop broke with the
cursor at `i`; `.inr m` means `partition` returns `m`. -/
def pAdv (n : Nat) (a : A) (piv : Int) (j : Nat) (i : Nat) : M (Nat ⊕ Nat) :=
  if h : i < n then
    if piv ≤ a i then pure (.inl i)
    else if i + 1 = j then pure (.inr (i + 1))
    else pAdv n a piv j (i + 1)
  else .error .oob
termination_by n - i
decreasing_by omega

/-- `partition`'s second inner loop: `if j == i return i; j -= 1;` retreat
while `arr[j] > pivot`.  `.inl j` means the loop broke with the cursor at
`j`; `.inr m` means `partition` returns `m`. -/
def pRet (n : Nat) (a : A) (piv : Int) (i : Nat) : Nat → M (Nat ⊕ Nat)
  | 0 => if 0 = i then pure (.inr i) else .error .uflow
  | j' + 1 =>
      if j' + 1 = i then pure (.inr i)
      else
        if j' < n then
          if a j' ≤ piv then pure (.inl j') else pRet n a piv i j'
        else .error .oob

/-- `partition`'s outer loop: run the two inner loops, swap, repeat.
Returns the final store and the split index. -/
def pOuter (n : Nat) (piv : Int) : Nat → A → Nat → Nat → M (A × Nat)
  | 0, _, _, _ => .error .fuelOut
  | fuel + 1, a, i, j => do
      match ← pAdv n a piv j i with
      | .inr m => pure (a, m)
      | .inl i' => do
          match ← pRet n a piv i' j with
          | .inr m => pure (a, m)
          | .inl j' =>
              if i' < n ∧ j' < n then
                pOuter n piv fuel
                  (Function.update (Function.update a i' (a j')) j' (a i')) i' j'
              else .error .oob

/-- `partition(arr, l, r, p_idx)`: capture `pivot_val = arr[p_idx]`, then run
the cursor loops from `i = l`, `j = r`.  The outer loop decreases `j` on
every iteration that does not return, so `r + 2 - l` rounds of fuel are
exact for every execution the algorithm performs. -/
def partitionM (n : Nat) (a : A) (l r p : Nat) : M (A × Nat) := do
  let piv ← rd n a p
  pOuter n piv (r + 2 - l) a l r

/-- `block_swap(arr, m, r, p)`: `left_len = r.wrapping_sub(m)`; if zero,
return; otherwise rotate the subslice `arr[m ..= p]` left by `left_len`
(`rotate_left` panics when the rotation count exceeds the slice length,
and taking the subslice panics when it leaves the array). -/
def blockSwapM (n : Nat) (a : A) (m r p : Nat) : M A := do
  let leftLen := wsub r m
  if leftLen = 0 then pure a
  else do
    let d ← csub p m
    let rangeLen := d + 1
    if m + rangeLen ≤ n then
      if leftLen ≤ rangeLen then
        pure (fun k =>
          if m ≤ k ∧ k < m + rangeLen then a (m + ((k - m + leftLen) % rangeLen))
          else a k)
      else .error .oob
    else .error .oob

mutual

/-- `downwave(arr, start, sorted_start, end)` with fuel for the mutual
recursion; a direct transcription of the source's branch structure. -/
def downwaveM : Nat → Nat → A → Nat → Nat → Nat → M A
  | 0, _, _, _, _, _ => .error .fuelOut
  | fuel + 1, n, a, start, ss, e =>
    if ss = start then pure a
    else do
      let d ← csub e start
      if d ≤ insertionThreshold then insRange n a start e
      else do
        let d2 ← csub e ss
        let p := ss + d2 / 2
        let r ← partitionM n a start ss p
        let a1 := r.1
        let m := r.2
        if m = ss then
          if p = ss then
            if ss > 0 then upwaveM fuel n a1 start (ss - 1) else pure a1
          else
            if p > 0 then downwaveM fuel n a1 start ss (p - 1) else pure a1
        else do
          let a2 ← blockSwapM n a1 m ss p
          if m = start then
            if p = ss then upwaveM fuel n a2 (m + 1) e
            else do
              let pn := p + 1
              let s' ← csub (m + pn) ss
              downwaveM fuel n a2 s' pn e
          else
            if p = ss then do
              let a3 ← if m > 0 then upwaveM fuel n a2 start (m - 1) else pure a2
              upwaveM fuel n a3 (m + 1) e
            else do
              let d4 ← csub p ss
              let sp := m + d4
              let a3 ← if sp > 0 then downwaveM fuel n a2 start m (sp - 1) else pure a2
              downwaveM fuel n a3 (sp + 1) (p + 1) e

/-- `upwave(arr, start, end)` with fuel for the mutual recursion. -/
def upwaveM : Nat → Nat → A → Nat → Nat → M A
  | 0, _, _, _, _ => .error .fuelOut
  | fuel + 1, n, a, start, e =>
    if start = e then pure a
    else do
      let d ← csub e start
      if d ≤ insertionThreshold then insRange n a start e
      else
        if e = 0 then pure a
        else do
          let lb := e - 1
          let d' ← csub e start
          upLoopM fuel n a start e (d' + 1) e lb

/-- The `loop { … }` inside `upwave`, with the trailing
`downwave(arr, start, sorted_start, end)` cleanup call inlined at each
`break`.  Arguments: fuel, `n`, store, `start`, `end`, `total_len`,
`sorted_start`, `left_bound`. -/
def upLoopM : Nat → Nat → A → Nat → Nat → Nat → Nat → Nat → M A
  | 0, _, _, _, _, _, _, _ => .error .fuelOut
  | fuel + 1, n, a, start, e, tl, ss, lb => do
      let a1 ← downwaveM fuel n a lb ss e
      let ss' := lb
      let d ← csub e ss'
      let sl := d + 1
      if tl < sl * 4 then downwaveM fuel n a1 start ss' e
      else do
        let ne := sl * 2 + 1
        let lb1 := if e < ne then start else if e - ne < start then start else e - ne
        let lb2 := if lb1 < start then start else lb1
        if ss' = start then downwaveM fuel n a1 start ss' e
        else upLoopM fuel n a1 start e tl ss' lb2

end

/-- `wavesort_rust::sort(arr)` for a slice of length `n`. -/
def sortM (fuel : Nat) (n : Nat) (a : A) : M A :=
  if n < 2 then pure a
  else if n ≤ insertionThreshold then insRange n a 0 (n - 1)
  else upwaveM fuel n a 0 (n - 1)

/-- The window `arr[s .. s+len)` of a store, as a list. -/
def win (a : A) : Nat → Nat → List Int
  | _, 0 => []
  | s, len + 1 => a s :: win a (s + 1) len

/-- Adjacent-pair ascending sortedness of `arr[lo ..= hi]`
(every `k` with `lo ≤ k < hi` satisfies `arr[k] ≤ arr[k+1]`). -/
def SortedOn (a : A) (lo hi : Nat) : Prop :=
  ∀ k, lo ≤ k → k < hi → a k ≤ a (k + 1)

/-- `a'` is a rearrangement of `a` inside `[s ..= e]`: both stores agree
outside the range and the windows are permutations of each other. -/
def Rearr (s e : Nat) (a a' : A) : Prop :=
  (∀ k, k < s ∨ e < k → a' k = a k) ∧ (win a' s (e + 1 - s)).Perm (win a s (e + 1 - s))

/-- The guard under which `downwave` reaches its InsertionSort branch:
the trivial `sorted_start == start` return did not fire, `end - start`
did not underflow, and `end - start <= INSERTION_THRESHOLD`. -/
def downInsGuard (start ss e : Nat) : Prop :=
  ss ≠ start ∧ start ≤ e ∧ e - start ≤ insertionThreshold

/-- The guard under which `upwave` reaches its InsertionSort branch. -/
def upInsGuard (start e : Nat) : Prop :=
  start ≠ e ∧ start ≤ e ∧ e - start ≤ insertionThreshold

/-- Claim C5's reading of spec invariant 2: were `partition` to read no
cell outside `[l, r]`, its split index would be a function of the cells
of `[l, r]` alone. -/
def PartitionSplitDependsOnlyOnWindow : Prop :=
  ∀ n (a b : A) l r p, (∀ k, l ≤ k → k ≤ r → a k = b k) →
    (partitionM n a l r p).map Prod.snd = (partitionM n b l r p).map Prod.snd

/-- Concrete store `[3, 0, -5]` (padded with `-5`). -/
def exC3 : A := fun k => if k = 0 then 3 else if k = 1 then 0 else -5

/-- Concrete store `[5, 0, 3]` (padded with `3`). -/
def exC5a : A := fun k => if k = 0 then 5 else if k = 1 then 0 else 3

/-- Concrete store `[5, 0, 10]` (padded with `10`). -/
def exC5b : A := fun k => if k = 0 then 5 else if k = 1 then 0 else 10

/-- The identity store `0, 1, 2, …`, ascending. -/
def exId : A := fun k => (k : Int)

/-! ## Basic lemmas about the monad and the window -/

@[simp] lemma ok_bind {α β : Type} (x : α) (f : α → M β) :
    (Except.ok x >>= f : M β) = f x := rfl

@[simp] lemma error_bind {α β : Type} (e : Fault) (f : α → M β) :
    (Except.error e >>= f : M β) = .error e := rfl

@[simp] lemma pure_eq_ok {α : Type} (x : α) : (pure x : M α) = .ok x := rfl

@[simp] lemma win_zero (a : A) (s : Nat) : win a s 0 = [] := rfl

@[simp] lemma win_succ (a : A) (s len : Nat) :
    win a s (len + 1) = a s :: win a (s + 1) len := rfl

lemma win_one (a : A) (s : Nat) : win a s 1 = [a s] := rfl

@[simp] lemma win_length (a : A) (s len : Nat) : (win a s len).length = len := by
  induction len generalizing s with
  | zero => rfl
  | succ k ih => simp [win, ih]

lemma win_shift {a b : A} {s s' : Nat} (len : Nat)
    (h : ∀ t, t < len → a (s + t) = b (s' + t)) : win a s len = win b s' len := by
  induction len generalizing s s' with
  | zero => rfl
  | succ k ih =>
      simp only [win]
      refine congrArg₂ _ ?_ (ih fun t ht => ?_)
      · simpa using h 0 (by omega)
      · have := h (t + 1) (by omega)
        simpa [Nat.add_assoc, Nat.add_comm 1 t] using this

lemma win_congr {a b : A} {s : Nat} (len : Nat)
    (h : ∀ k, s ≤ k → k < s + len → a k = b k) : win a s len = win b s len :=
  win_shift len fun t ht => h (s + t) (by omega) (by omega)

lemma win_append (a : A) (s l1 l2 : Nat) :
    win a s (l1 + l2) = win a s l1 ++ win a (s + l1) l2 := by
  induction l1 generalizing s with
  | zero => simp
  | succ k ih =>
      have h1 : k + 1 + l2 = (k + l2) + 1 := by omega
      rw [h1]
      simp only [win]
      rw [ih]
      have h2 : s + 1 + k = s + (k + 1) := by omega
      rw [h2, List.cons_append]

lemma mem_win {a : A} {s len k : Nat} (h1 : s ≤ k) (h2 : k < s + len) :
    a k ∈ win a s len := by
  induction len generalizing s with
  | zero => omega
  | succ l ih =>
      rcases Nat.eq_or_lt_of_le h1 with h | h
      · simp [win, h]
      · simp only [win, List.mem_cons]
        exact Or.inr (ih (by omega) (by omega))

lemma win_get {a : A} {len t : Nat} (s : Nat) (h : t < len) :
    (win a s len)[t]? = some (a (s + t)) := by
  induction len generalizing s t with
  | zero => omega
  | succ l ih =>
      cases t with
      | zero => simp [win]
      | succ t' =>
          simp only [win, List.getElem?_cons_succ]
          rw [ih (s + 1) (by omega)]
          congr 2
          omega

lemma win_eq_of_ptwise {a b : A} {s len : Nat}
    (h : win a s len = win b s len) : ∀ t, t < len → a (s + t) = b (s + t) := by
  intro t ht
  have h2 := congrArg (fun l => l[t]?) h
  simp only [win_get s ht] at h2
  exact Option.some.inj h2

lemma win_update_out {a : A} {s len k : Nat} (v : Int)
    (h : k < s ∨ s + len ≤ k) : win (Function.update a k v) s len = win a s len := by
  refine win_congr len fun k' h1 h2 => ?_
  have : k' ≠ k := by omega
  simp [Function.update, this]

/-- The window after swapping positions `i ≤ j` is a permutation of the
original window. -/
lemma win_swap_perm {a : A} {s len i j : Nat}
    (hi : s ≤ i) (hij : i ≤ j) (hj : j < s + len) :
    (win (Function.update (Function.update a i (a j)) j (a i)) s len).Perm
      (win a s len) := by
  rcases Nat.eq_or_lt_of_le hij with rfl | hlt
  · have h1 : Function.update a i (a i) = a := Function.update_eq_self i a
    rw [h1, Function.update_eq_self]
  · set b := Function.update (Function.update a i (a j)) j (a i) with hb
    have hbi : b i = a j := by
      have : i ≠ j := by omega
      simp [hb, Function.update, this]
    have hbj : b j = a i := by simp [hb, Function.update]
    have hoff : ∀ k, k ≠ i → k ≠ j → b k = a k := by
      intro k h1 h2
      simp [hb, Function.update, h1, h2]
    have hsplit : len = (i - s) + (1 + ((j - i - 1) + (1 + (s + len - j - 1)))) := by
      omega
    have expand : ∀ c : A, win c s len =
        win c s (i - s) ++ (win c i 1 ++ (win c (i + 1) (j - i - 1) ++
          (win c j 1 ++ win c (j + 1) (s + len - j - 1)))) := by
      intro c
      conv_lhs => rw [hsplit]
      rw [win_append, win_append, win_append, win_append]
      have e1 : s + (i - s) = i := by omega
      have e2 : i + 1 + (j - i - 1) = j := by omega
      rw [e1]
      congr 2
      rw [e2]
    rw [expand a, expand b]
    have eX : win b s (i - s) = win a s (i - s) :=
      win_congr _ fun k h1 h2 => hoff k (by omega) (by omega)
    have eY : win b (i + 1) (j - i - 1) = win a (i + 1) (j - i - 1) :=
      win_congr _ fun k h1 h2 => hoff k (by omega) (by omega)
    have eZ : win b (j + 1) (s + len - j - 1) = win a (j + 1) (s + len - j - 1) :=
      win_congr _ fun k h1 h2 => hoff k (by omega) (by omega)
    rw [eX, eY, eZ, win_one, win_one, win_one, win_one, hbi, hbj]
    refine List.Perm.append_left _ ?_
    have core : ∀ (u v : Int) (Y Z : List Int),
        ([u] ++ (Y ++ ([v] ++ Z))).Perm ([v] ++ (Y ++ ([u] ++ Z))) := by
      intro u v Y Z
      simp only [List.singleton_append, List.cons_append]
      have h1 : (u :: (Y ++ v :: Z)).Perm (u :: v :: (Y ++ Z)) :=
        List.Perm.cons u List.perm_middle
      have h2 : (u :: v :: (Y ++ Z)).Perm (v :: u :: (Y ++ Z)) :=
        List.Perm.swap v u (Y ++ Z)
      have h3 : (v :: u :: (Y ++ Z)).Perm (v :: (Y ++ u :: Z)) :=
        List.Perm.cons v List.perm_middle.symm
      exact h1.trans (h2.trans h3)
    exact core (a j) (a i) _ _

/-! ## Sortedness lemmas -/

lemma sortedOn_trivial {a : A} {lo hi : Nat} (h : hi ≤ lo) : SortedOn a lo hi := by
  intro k h1 h2
  omega

lemma sortedOn_congr {a b : A} {lo hi : Nat}
    (h : ∀ k, lo ≤ k → k ≤ hi → a k = b k) (hs : SortedOn a lo hi) :
    SortedOn b lo hi := by
  intro k h1 h2
  rw [← h k h1 (by omega), ← h (k + 1) (by omega) (by omega)]
  exact hs k h1 h2

lemma sortedOn_mono {a : A} {lo hi lo' hi' : Nat}
    (hs : SortedOn a lo hi) (h1 : lo ≤ lo') (h2 : hi' ≤ hi) : SortedOn a lo' hi' :=
  fun k hk1 hk2 => hs k (by omega) (by omega)

lemma sortedOn_glue {a : A} {lo mid hi : Nat}
    (h1 : SortedOn a lo mid) (h2 : SortedOn a mid hi) : SortedOn a lo hi := by
  intro k hk1 hk2
  rcases Nat.lt_or_ge k mid with h | h
  · exact h1 k hk1 h
  · exact h2 k h hk2

lemma sortedOn_le {a : A} {lo hi i j : Nat} (hs : SortedOn a lo hi)
    (h1 : lo ≤ i) (h2 : i ≤ j) (h3 : j ≤ hi) : a i ≤ a j := by
  induction j with
  | zero =>
      have h0 : i = 0 := by omega
      simp [h0]
  | succ j' ih =>
      rcases Nat.eq_or_lt_of_le h2 with h | h
      · simp [h]
      · exact le_trans (ih (by omega) (by omega)) (hs j' (by omega) (by omega))

lemma win_chain' {a : A} {s : Nat} (len : Nat) :
    List.Chain' (· ≤ ·) (win a s len) ↔
      (∀ t, t + 1 < len → a (s + t) ≤ a (s + t + 1)) := by
  induction len generalizing s with
  | zero => simp [win]
  | succ l ih =>
      cases l with
      | zero => simp [win]
      | succ l' =>
          rw [show win a s (l' + 1 + 1) = a s :: win a (s + 1) (l' + 1) from rfl]
          rw [show win a (s + 1) (l' + 1) = a (s + 1) :: win a (s + 1 + 1) l' from rfl]
          rw [List.chain'_cons, ← win_succ, ih]
          constructor
          · rintro ⟨hhd, htl⟩ t ht
            cases t with
            | zero => simpa using hhd
            | succ t' =>
                have h2 := htl t' (by omega)
                have e1 : s + 1 + t' = s + (t' + 1) := by omega
                rw [e1] at h2
                exact h2
          · intro h
            refine ⟨by simpa using h 0 (by omega), ?_⟩
            intro t ht
            have h2 := h (t + 1) (by omega)
            have e1 : s + 1 + t = s + (t + 1) := by omega
            rw [e1]
            exact h2

lemma win_sorted_iff {a : A} {s : Nat} (len : Nat) :
    (win a s len).Sorted (· ≤ ·) ↔
      (∀ t, t + 1 < len → a (s + t) ≤ a (s + t + 1)) := by
  rw [List.Sorted, ← List.chain'_iff_pairwise, win_chain']

lemma win_sorted_of_sortedOn {a : A} {s e : Nat} (h : SortedOn a s e) :
    (win a s (e + 1 - s)).Sorted (· ≤ ·) := by
  rw [win_sorted_iff]
  intro t ht
  exact h (s + t) (by omega) (by omega)

lemma sortedOn_of_win_sorted {a : A} {s e : Nat}
    (h : (win a s (e + 1 - s)).Sorted (· ≤ ·)) : SortedOn a s e := by
  rw [win_sorted_iff] at h
  intro k h1 h2
  have h3 := h (k - s) (by omega)
  have e1 : s + (k - s) = k := by omega
  rw [e1] at h3
  exact h3

lemma win_mem_elim {a : A} {s len : Nat} {x : Int} (h : x ∈ win a s len) :
    ∃ k, s ≤ k ∧ k < s + len ∧ x = a k := by
  induction len generalizing s with
  | zero => simp [win] at h
  | succ l ih =>
      rw [win_succ, List.mem_cons] at h
      rcases h with h | h
      · exact ⟨s, by omega, by omega, h⟩
      · obtain ⟨k, h1, h2, h3⟩ := ih h
        exact ⟨k, by omega, by omega, h3⟩

/-! ## Rearrangement lemmas -/

lemma rearr_refl (s e : Nat) (a : A) : Rearr s e a a :=
  ⟨fun _ _ => rfl, List.Perm.refl _⟩

lemma rearr_trans {s e : Nat} {a b c : A} (h1 : Rearr s e a b) (h2 : Rearr s e b c) :
    Rearr s e a c :=
  ⟨fun k hk => (h2.1 k hk).trans (h1.1 k hk), h2.2.trans h1.2⟩

lemma rearr_mono {s e s' e' : Nat} {a b : A} (h : Rearr s' e' a b)
    (h1 : s ≤ s') (h2 : e' ≤ e) (h3 : s' ≤ e' + 1) : Rearr s e a b := by
  obtain ⟨hfr, hperm⟩ := h
  refine ⟨fun k hk => hfr k (by omega), ?_⟩
  have hsplit : e + 1 - s = (s' - s) + ((e' + 1 - s') + (e - e')) := by omega
  have expand : ∀ c : A, win c s (e + 1 - s) =
      win c s (s' - s) ++ (win c s' (e' + 1 - s') ++ win c (e' + 1) (e - e')) := by
    intro c
    rw [hsplit, win_append, win_append]
    have e1 : s + (s' - s) = s' := by omega
    have e2 : s' + (e' + 1 - s') = e' + 1 := by omega
    rw [e1, e2]
  rw [expand a, expand b]
  have eX : win b s (s' - s) = win a s (s' - s) :=
    win_congr _ fun k hk1 hk2 => hfr k (by omega)
  have eZ : win b (e' + 1) (e - e') = win a (e' + 1) (e - e') :=
    win_congr _ fun k hk1 hk2 => hfr k (by omega)
  rw [eX, eZ]
  exact List.Perm.append_left _ (List.Perm.append_right _ hperm)

lemma rearr_all_mem {s e : Nat} {a b : A} (h : Rearr s e a b) {P : Int → Prop}
    (hp : ∀ k, s ≤ k → k ≤ e → P (a k)) : ∀ k, s ≤ k → k ≤ e → P (b k) := by
  intro k h1 h2
  have hmem : b k ∈ win b s (e + 1 - s) := mem_win h1 (by omega)
  have hmem2 : b k ∈ win a s (e + 1 - s) := h.2.mem_iff.mp hmem
  obtain ⟨k', hk1, hk2, hk3⟩ := win_mem_elim hmem2
  rw [hk3]
  exact hp k' hk1 (by omega)

/-! ## Insertion sort: specification -/

/-- Full characterisation of the shift loop of `insertion_sort`. -/
lemma insShift_spec (len lo : Nat) (key : Int) :
    ∀ j a, j < len →
    ∃ a' t, insShift len lo key a j = .ok (a', t) ∧ t ≤ j ∧
      (∀ k, k < lo + t + 1 ∨ lo + j < k → a' k = a k) ∧
      (∀ u, t ≤ u → u < j → a' (lo + u + 1) = a (lo + u)) ∧
      (∀ u, t ≤ u → u < j → key < a (lo + u)) ∧
      (t = 0 ∨ a (lo + t - 1) ≤ key) := by
  intro j
  induction j with
  | zero =>
      intro a hj
      refine ⟨a, 0, rfl, le_refl 0, fun k hk => rfl, ?_, ?_, Or.inl rfl⟩
      · intro u h1 h2
        omega
      · intro u h1 h2
        omega
  | succ j ih =>
      intro a hj
      have hjlen : j < len := by omega
      by_cases hkey : key < a (lo + j)
      · set b : A := Function.update a (lo + (j + 1)) (a (lo + j)) with hbdef
        obtain ⟨a', t, heq, ht, hframe, hshift, hpassed, hstop⟩ := ih b hjlen
        have hb_at : ∀ k, k ≠ lo + (j + 1) → b k = a k := by
          intro k hk
          simp [hbdef, Function.update, hk]
        have hb_self : b (lo + (j + 1)) = a (lo + j) := by
          simp [hbdef, Function.update]
        refine ⟨a', t, ?_, by omega, ?_, ?_, ?_, ?_⟩
        · simp only [insShift, rdR, wrR, if_pos hjlen, pure_eq_ok, ok_bind,
            if_pos hkey, if_pos (show j + 1 < len by omega)]
          exact heq
        · intro k hk
          rcases hk with hk | hk
          · rw [hframe k (Or.inl hk), hb_at k (by omega)]
          · rw [hframe k (Or.inr (by omega)), hb_at k (by omega)]
        · intro u h1 h2
          rcases Nat.lt_or_ge u j with h | h
          · rw [hshift u h1 h, hb_at _ (by omega)]
          · have hu : u = j := by omega
            subst hu
            rw [hframe _ (Or.inr (by omega)), show lo + u + 1 = lo + (u + 1) by omega,
              hb_self]
        · intro u h1 h2
          rcases Nat.lt_or_ge u j with h | h
          · have := hpassed u h1 h
            rwa [hb_at _ (by omega)] at this
          · have hu : u = j := by omega
            subst hu
            exact hkey
        · rcases hstop with h | h
          · exact Or.inl h
          · right
            rwa [hb_at _ (by omega)] at h
      · refine ⟨a, j + 1, ?_, le_refl _, fun k hk => rfl, ?_, ?_, ?_⟩
        · simp only [insShift, rdR, if_pos hjlen, pure_eq_ok, ok_bind, if_neg hkey]
        · intro u h1 h2
          omega
        · intro u h1 h2
          omega
        · right
          have e : lo + (j + 1) - 1 = lo + j := by omega
          rw [e]
          exact not_lt.mp hkey

/-- One outer-loop iteration of `insertion_sort` extends the sorted prefix. -/
lemma insStep_spec (len lo : Nat) (a : A) (i : Nat) (hi : i < len) (h1 : 1 ≤ i)
    (hs : SortedOn a lo (lo + i - 1)) :
    ∃ a', insStep len lo a i = .ok a' ∧ Rearr lo (lo + i) a a' ∧
      SortedOn a' lo (lo + i) := by
  obtain ⟨b, t, heq, ht, hframe, hshift, hpassed, hstop⟩ :=
    insShift_spec len lo (a (lo + i)) i a hi
  set key := a (lo + i) with hkeydef
  set a' : A := Function.update b (lo + t) key with hadef
  have hD1 : ∀ k, k < lo + t → a' k = a k := by
    intro k hk
    have hne : k ≠ lo + t := by omega
    rw [hadef, Function.update_noteq hne, hframe k (Or.inl (by omega))]
  have hD2 : a' (lo + t) = key := by
    rw [hadef, Function.update_same]
  have hD3 : ∀ u, t ≤ u → u < i → a' (lo + u + 1) = a (lo + u) := by
    intro u hu1 hu2
    have hne : lo + u + 1 ≠ lo + t := by omega
    rw [hadef, Function.update_noteq hne, hshift u hu1 hu2]
  have hD4 : ∀ k, lo + i < k → a' k = a k := by
    intro k hk
    have hne : k ≠ lo + t := by omega
    rw [hadef, Function.update_noteq hne, hframe k (Or.inr (by omega))]
  refine ⟨a', ?_, ⟨?_, ?_⟩, ?_⟩
  · simp only [insStep, rdR, if_pos hi, pure_eq_ok, ok_bind, heq, wrR,
      if_pos (show t < len by omega)]
  · intro k hk
    rcases hk with hk | hk
    · exact hD1 k (by omega)
    · exact hD4 k hk
  · -- window permutation
    have hwin : win a' lo (lo + i + 1 - lo) =
        win a lo t ++ (key :: win a (lo + t) (i - t)) := by
      have hlen : lo + i + 1 - lo = t + (1 + (i - t)) := by omega
      rw [hlen, win_append, win_append]
      have e1' : win a' lo t = win a lo t := by
        refine win_congr _ fun k hk1 hk2 => hD1 k (by omega)
      have e2 : win a' (lo + t) 1 = [key] := by
        rw [win_one, hD2]
      have e3 : win a' (lo + t + 1) (i - t) = win a (lo + t) (i - t) := by
        refine win_shift _ fun u hu => ?_
        have e : lo + t + 1 + u = lo + (t + u) + 1 := by omega
        have e' : lo + t + u = lo + (t + u) := by omega
        rw [e, e', hD3 (t + u) (by omega) (by omega)]
      rw [e1', e2, e3, List.singleton_append]
    rw [hwin]
    have hsplit : win a lo (lo + i + 1 - lo) =
        win a lo t ++ (win a (lo + t) (i - t) ++ [a (lo + i)]) := by
      have hlen : lo + i + 1 - lo = t + ((i - t) + 1) := by omega
      rw [hlen, win_append, win_append]
      have e : lo + t + (i - t) = lo + i := by omega
      rw [e, win_one]
    rw [hsplit]
    refine List.Perm.append_left _ ?_
    rw [hkeydef]
    exact (List.perm_append_singleton _ _).symm
  · -- sortedness of the extended prefix
    intro k hk1 hk2
    rcases Nat.lt_or_ge (k + 1) (lo + t) with hc | hc
    · rw [hD1 k (by omega), hD1 (k + 1) hc]
      exact hs k hk1 (by omega)
    · rcases Nat.eq_or_lt_of_le hc with hc2 | hc2
      · -- lo + t = k + 1
        have e1 : a' k = a k := hD1 k (by omega)
        have e2 : a' (k + 1) = key := by rw [← hc2, hD2]
        rw [e1, e2]
        rcases hstop with h0 | hle
        · omega
        · have e : lo + t - 1 = k := by omega
          rw [e] at hle
          exact hle
      · rcases Nat.eq_or_lt_of_le (show lo + t ≤ k by omega) with hc3 | hc3
        · -- lo + t = k
          have hti : t < i := by omega
          have e1 : a' k = key := by rw [← hc3, hD2]
          have e2 : a' (k + 1) = a (lo + t) := by
            have e : k + 1 = lo + t + 1 := by omega
            rw [e, hD3 t (le_refl t) hti]
          rw [e1, e2]
          exact le_of_lt (hpassed t (le_refl t) hti)
        · -- k > lo + t
          have hu : ∃ u, k = lo + u + 1 ∧ t ≤ u ∧ u < i := ⟨k - lo - 1, by omega, by omega, by omega⟩
          obtain ⟨u, rfl, hu1, hu2⟩ := hu
          rw [hD3 u hu1 hu2]
          have e : lo + u + 1 + 1 = lo + (u + 1) + 1 := by omega
          rw [e, hD3 (u + 1) (by omega) (by omega)]
          have e' : lo + (u + 1) = lo + u + 1 := by omega
          rw [e']
          exact hs (lo + u) (by omega) (by omega)

/-- The outer loop of `insertion_sort` sorts `slice[0 .. len)` in place. -/
lemma insLoop_spec (len lo : Nat) :
    ∀ k a i, 1 ≤ i → i + k = len → SortedOn a lo (lo + i - 1) →
    ∃ a', insLoop len lo a k i = .ok a' ∧ Rearr lo (lo + len - 1) a a' ∧
      SortedOn a' lo (lo + len - 1) := by
  intro k
  induction k with
  | zero =>
      intro a i h1 h2 hs
      refine ⟨a, rfl, rearr_refl _ _ _, ?_⟩
      have e : len = i := by omega
      rw [e]
      exact hs
  | succ k ih =>
      intro a i h1 h2 hs
      obtain ⟨a1, heq1, hre1, hs1⟩ := insStep_spec len lo a i (by omega) h1 hs
      obtain ⟨a2, heq2, hre2, hs2⟩ := ih a1 (i + 1) (by omega) (by omega)
        (by
          have e : lo + (i + 1) - 1 = lo + i := by omega
          rw [e]
          exact hs1)
      refine ⟨a2, ?_, ?_, hs2⟩
      · simp only [insLoop, heq1, ok_bind, heq2]
      · exact rearr_trans (rearr_mono hre1 (le_refl lo) (by omega) (by omega)) hre2

/-- `insertion_sort(&mut arr[s..=e])` sorts the range and rearranges only it. -/
lemma insRange_spec (n : Nat) (a : A) (s e : Nat) (h1 : s ≤ e) (h2 : e < n) :
    ∃ a', insRange n a s e = .ok a' ∧ Rearr s e a a' ∧ SortedOn a' s e := by
  unfold insRange
  rw [if_pos ⟨by omega, h2⟩]
  by_cases hlen : e + 1 - s < 2
  · rw [if_pos hlen]
    exact ⟨a, rfl, rearr_refl _ _ _, sortedOn_trivial (by omega)⟩
  · rw [if_neg hlen]
    obtain ⟨a', heq, hre, hs⟩ := insLoop_spec (e + 1 - s) s (e + 1 - s - 1) a 1
      (le_refl 1) (by omega) (sortedOn_trivial (by omega))
    have ee : s + (e + 1 - s) - 1 = e := by omega
    rw [ee] at hre hs
    exact ⟨a', heq, hre, hs⟩

/-! ## Partition: specification -/

/-- Behaviour of `partition`'s advancing loop. -/
lemma pAdv_spec (n : Nat) (a : A) (piv : Int) (j : Nat) (hjn : j < n) :
    ∀ d i, j - i ≤ d → i ≤ j → (i = j → piv ≤ a i) →
    (∃ i', pAdv n a piv j i = .ok (.inl i') ∧ i ≤ i' ∧ i' ≤ j ∧ piv ≤ a i' ∧
      (∀ u, i ≤ u → u < i' → a u < piv)) ∨
    (pAdv n a piv j i = .ok (.inr j) ∧ i < j ∧
      (∀ u, i ≤ u → u < j → a u < piv)) := by
  intro d
  induction d with
  | zero =>
      intro i hd hij hguard
      have he : i = j := by omega
      left
      refine ⟨i, ?_, le_refl i, hij, hguard he, fun u h1 h2 => by omega⟩
      rw [pAdv]
      rw [dif_pos (by omega : i < n), if_pos (hguard he)]
      rfl
  | succ d ih =>
      intro i hd hij hguard
      by_cases hbreak : piv ≤ a i
      · left
        refine ⟨i, ?_, le_refl i, hij, hbreak, fun u h1 h2 => by omega⟩
        rw [pAdv]
        rw [dif_pos (by omega : i < n), if_pos hbreak]
        rfl
      · have hlt : i < j := by
          rcases Nat.eq_or_lt_of_le hij with h | h
          · exact absurd (hguard h) hbreak
          · exact h
        by_cases hnext : i + 1 = j
        · right
          refine ⟨?_, hlt, ?_⟩
          · rw [pAdv]
            rw [dif_pos (by omega : i < n), if_neg hbreak, if_pos hnext, hnext]
            rfl
          · intro u h1 h2
            have he : u = i := by omega
            rw [he]
            exact lt_of_not_le hbreak
        · have hrec := ih (i + 1) (by omega) (by omega) (by omega)
          have hstep : pAdv n a piv j i = pAdv n a piv j (i + 1) := by
            rw [pAdv]
            rw [dif_pos (by omega : i < n), if_neg hbreak, if_neg hnext]
          rcases hrec with ⟨i', heq, h1, h2, h3, h4⟩ | ⟨heq, h1, h2⟩
          · left
            refine ⟨i', hstep ▸ heq, by omega, h2, h3, ?_⟩
            intro u hu1 hu2
            rcases Nat.eq_or_lt_of_le hu1 with h | h
            · rw [← h]
              exact lt_of_not_le hbreak
            · exact h4 u (by omega) hu2
          · right
            refine ⟨hstep ▸ heq, by omega, ?_⟩
            intro u hu1 hu2
            rcases Nat.eq_or_lt_of_le hu1 with h | h
            · rw [← h]
              exact lt_of_not_le hbreak
            · exact h2 u (by omega) hu2

/-- Behaviour of `partition`'s retreating loop. -/
lemma pRet_spec (n : Nat) (a : A) (piv : Int) (i : Nat) :
    ∀ j, i ≤ j → j ≤ n →
    (∃ j', pRet n a piv i j = .ok (.inl j') ∧ i ≤ j' ∧ j' < j ∧ a j' ≤ piv ∧
      (∀ u, j' < u → u < j → piv < a u)) ∨
    (pRet n a piv i j = .ok (.inr i) ∧ (∀ u, i ≤ u → u < j → piv < a u)) := by
  intro j
  induction j with
  | zero =>
      intro hij hjn
      right
      have he : i = 0 := by omega
      constructor
      · simp [pRet, he]
      · intro u h1 h2
        omega
  | succ j ih =>
      intro hij hjn
      by_cases hstop : j + 1 = i
      · right
        constructor
        · simp [pRet, hstop]
        · intro u h1 h2
          omega
      · have hjn' : j < n := by omega
        by_cases hbreak : a j ≤ piv
        · left
          refine ⟨j, ?_, by omega, by omega, hbreak, ?_⟩
          · simp only [pRet, if_neg hstop, if_pos hjn', if_pos hbreak]
            rfl
          · intro u h1 h2
            omega
        · have hrec := ih (by omega) (by omega)
          have hstep : pRet n a piv i (j + 1) = pRet n a piv i j := by
            simp only [pRet, if_neg hstop, if_pos hjn', if_neg hbreak]
          rcases hrec with ⟨j', heq, h1, h2, h3, h4⟩ | ⟨heq, h1⟩
          · left
            refine ⟨j', hstep ▸ heq, h1, by omega, h3, ?_⟩
            intro u hu1 hu2
            rcases Nat.lt_or_ge u j with h | h
            · exact h4 u hu1 h
            · have he : u = j := by omega
              rw [he]
              exact lt_of_not_le hbreak
          · right
            refine ⟨hstep ▸ heq, ?_⟩
            intro u hu1 hu2
            rcases Nat.lt_or_ge u j with h | h
            · exact h1 u hu1 h
            · have he : u = j := by omega
              rw [he]
              exact lt_of_not_le hbreak

/-- Invariant-based specification of `partition`'s outer loop: with `[l, i)`
already strictly below the pivot and `[j, r)` already at least the pivot,
the loop returns a split `m` of `[l, r)`, writing only inside `[i, j)`. -/
lemma pOuter_spec (n : Nat) (piv : Int) (l r : Nat) (hrn : r < n) :
    ∀ fuel a i j, l ≤ i → i ≤ j → j ≤ r →
    (i = j → piv ≤ a i) →
    (∀ u, l ≤ u → u < i → a u < piv) →
    (∀ u, j ≤ u → u < r → piv ≤ a u) →
    j - i < fuel →
    ∃ a' m, pOuter n piv fuel a i j = .ok (a', m) ∧ i ≤ m ∧ m ≤ j ∧
      (∀ k, k < i ∨ j ≤ k → a' k = a k) ∧
      (win a' i (j + 1 - i)).Perm (win a i (j + 1 - i)) ∧
      (∀ u, l ≤ u → u < m → a' u < piv) ∧
      (∀ u, m ≤ u → u < r → piv ≤ a' u) := by
  intro fuel
  induction fuel with
  | zero =>
      intro a i j _ _ _ _ _ _ hf
      omega
  | succ fuel ih =>
      intro a i j hli hij hjr hguard hpre hsuf hf
      rcases pAdv_spec n a piv j (by omega) (j - i) i (le_refl _) hij hguard with
        ⟨i', hadv, hii', hi'j, hpiv, hbelow⟩ | ⟨hadv, hlt, hbelow⟩
      · rcases pRet_spec n a piv i' j hi'j (by omega) with
          ⟨j', hret, hi'j', hj'j, hle, habove⟩ | ⟨hret, habove⟩
        · -- swap `a[i']` with `a[j']` and loop
          set b : A := Function.update (Function.update a i' (a j')) j' (a i')
            with hb
          have hbj' : b j' = a i' := by
            rw [hb, Function.update_same]
          have hbi' : i' ≠ j' → b i' = a j' := by
            intro hne
            rw [hb, Function.update_noteq hne, Function.update_same]
          have hbii : i' = j' → b i' = a i' := by
            intro heq2
            rw [heq2, hbj']
            rw [heq2]
          have hboff : ∀ k, k ≠ i' → k ≠ j' → b k = a k := by
            intro k h1 h2
            rw [hb, Function.update_noteq h2, Function.update_noteq h1]
          have hguard' : i' = j' → piv ≤ b i' := fun h => (hbii h) ▸ hpiv
          have hpre' : ∀ u, l ≤ u → u < i' → b u < piv := by
            intro u h1 h2
            rw [hboff u (by omega) (by omega)]
            rcases Nat.lt_or_ge u i with h | h
            · exact hpre u h1 h
            · exact hbelow u h h2
          have hsuf' : ∀ u, j' ≤ u → u < r → piv ≤ b u := by
            intro u h1 h2
            rcases Nat.eq_or_lt_of_le h1 with h | h
            · rw [← h, hbj']
              exact hpiv
            · rw [hboff u (by omega) (by omega)]
              rcases Nat.lt_or_ge u j with h3 | h3
              · exact le_of_lt (habove u h h3)
              · exact hsuf u h3 h2
          obtain ⟨a', m, heq', hm1, hm2, hframe', hperm', hbel', habv'⟩ :=
            ih b i' j' (by omega) hi'j' (by omega) hguard' hpre' hsuf' (by omega)
          refine ⟨a', m, ?_, by omega, by omega, ?_, ?_, hbel', habv'⟩
          · simp only [pOuter, hadv, ok_bind, hret]
            rw [if_pos ⟨show i' < n by omega, show j' < n by omega⟩]
            exact heq'
          · intro k hk
            have hstep : a' k = b k := by
              refine hframe' k ?_
              rcases hk with hk | hk
              · exact Or.inl (by omega)
              · exact Or.inr (by omega)
            rw [hstep, hboff k (by omega) (by omega)]
          · have hmid : Rearr i' j' b a' := by
              refine ⟨fun k hk => ?_, hperm'⟩
              refine hframe' k ?_
              rcases hk with hk | hk
              · exact Or.inl hk
              · exact Or.inr (by omega)
            have hwide : Rearr i j b a' :=
              rearr_mono hmid (by omega) (by omega) (by omega)
            have hswap : (win b i (j + 1 - i)).Perm (win a i (j + 1 - i)) := by
              rw [hb]
              exact win_swap_perm (by omega) hi'j' (by omega)
            exact hwide.2.trans hswap
        · -- the retreating loop met the advancing cursor: split at `i'`
          refine ⟨a, i', ?_, hii', hi'j, fun k _ => rfl, List.Perm.refl _, ?_, ?_⟩
          · simp only [pOuter, hadv, ok_bind, hret]
            rfl
          · intro u h1 h2
            rcases Nat.lt_or_ge u i with h | h
            · exact hpre u h1 h
            · exact hbelow u h h2
          · intro u h1 h2
            rcases Nat.lt_or_ge u j with h | h
            · exact le_of_lt (habove u h1 h)
            · exact hsuf u h h2
      · -- the advancing loop met the retreating cursor: split at `j`
        refine ⟨a, j, ?_, hij, le_refl j, fun k _ => rfl, List.Perm.refl _, ?_, ?_⟩
        · simp only [pOuter, hadv, ok_bind]
          rfl
        · intro u h1 h2
          rcases Nat.lt_or_ge u i with h | h
          · exact hpre u h1 h
          · exact hbelow u h h2
        · exact hsuf

/-- Specification of `partition(arr, l, r, p_idx)` for `l < r ≤ n - 1`:
returns a split index `m ∈ [l, r]`, touches only `[l, r)`, permutes that
range, and separates it into `< pivot` and `≥ pivot` halves (the cell at
`r` itself is neither read nor written by the cursor loops). -/
lemma partitionM_spec (n : Nat) (a : A) (l r p : Nat)
    (hlr : l < r) (hrn : r < n) (hpn : p < n) :
    ∃ a' m, partitionM n a l r p = .ok (a', m) ∧ l ≤ m ∧ m ≤ r ∧
      (∀ k, k < l ∨ r ≤ k → a' k = a k) ∧
      (win a' l (r + 1 - l)).Perm (win a l (r + 1 - l)) ∧
      (∀ u, l ≤ u → u < m → a' u < a p) ∧
      (∀ u, m ≤ u → u < r → a p ≤ a' u) := by
  obtain ⟨a', m, heq, h1, h2, h3, h4, h5, h6⟩ :=
    pOuter_spec n (a p) l r hrn (r + 2 - l) a l r (le_refl l) (by omega)
      (le_refl r) (by omega) (fun u hu1 hu2 => by omega)
      (fun u hu1 hu2 => by omega) (by omega)
  refine ⟨a', m, ?_, h1, h2, h3, h4, h5, h6⟩
  simp only [partitionM, rd, if_pos hpn, pure_eq_ok, ok_bind]
  exact heq

/-! ## BlockSwap: specification -/

/-- Specification of `block_swap(arr, m, r, p)` for `m ≤ r ≤ p < n`:
the window `[m ..= p]` is rotated left by `r - m` (the old `[r ..= p]`
lands at `m`, the old left block `[m, r)` lands right after it), nothing
outside the window moves, the window is permuted, and `r = m` is a no-op. -/
lemma blockSwapM_spec (n : Nat) (a : A) (m r p : Nat)
    (hmr : m ≤ r) (hrp : r ≤ p) (hpn : p < n) :
    ∃ a', blockSwapM n a m r p = .ok a' ∧
      (∀ k, k < m ∨ p < k → a' k = a k) ∧
      (∀ t, t < p + 1 - r → a' (m + t) = a (r + t)) ∧
      (∀ t, t < r - m → a' (m + (p + 1 - r) + t) = a (m + t)) ∧
      (win a' m (p + 1 - m)).Perm (win a m (p + 1 - m)) ∧
      (r = m → a' = a) := by
  have hL : wsub r m = r - m := by rw [wsub, if_pos hmr]
  rcases Nat.eq_or_lt_of_le hmr with hrm | hrm
  · -- `left_len == 0`: no-op
    refine ⟨a, ?_, fun k _ => rfl, ?_, ?_, List.Perm.refl _, fun _ => rfl⟩
    · have h0 : wsub r m = 0 := by
        rw [hL]
        omega
      simp [blockSwapM, h0]
    · intro t ht
      rw [← hrm]
    · intro t ht
      omega
  · set R : Nat := p - m + 1 with hR
    set L : Nat := r - m with hLdef
    set a' : A := fun k =>
      if m ≤ k ∧ k < m + R then a (m + ((k - m + L) % R)) else a k with ha'
    have heq : blockSwapM n a m r p = .ok a' := by
      simp only [blockSwapM, hL, ← hLdef, if_neg (show ¬L = 0 by omega), csub,
        if_pos (show m ≤ p by omega), pure_eq_ok, ok_bind, ← hR,
        if_pos (show m + R ≤ n by omega), if_pos (show L ≤ R by omega)]
    have hframe : ∀ k, k < m ∨ p < k → a' k = a k := by
      intro k hk
      rw [ha']
      have hcond : ¬(m ≤ k ∧ k < m + R) := by omega
      simp only [if_neg hcond]
    have hseg1 : ∀ t, t < p + 1 - r → a' (m + t) = a (r + t) := by
      intro t ht
      rw [ha']
      simp only [if_pos (show m ≤ m + t ∧ m + t < m + R by omega)]
      have e1 : m + t - m + L = t + L := by omega
      rw [e1, Nat.mod_eq_of_lt (show t + L < R by omega)]
      congr 1
      omega
    have hseg2 : ∀ t, t < r - m → a' (m + (p + 1 - r) + t) = a (m + t) := by
      intro t ht
      rw [ha']
      simp only [if_pos (show m ≤ m + (p + 1 - r) + t ∧
        m + (p + 1 - r) + t < m + R by omega)]
      have e1 : m + (p + 1 - r) + t - m + L = R + t := by omega
      rw [e1, Nat.add_mod_left, Nat.mod_eq_of_lt (show t < R by omega)]
    refine ⟨a', heq, hframe, hseg1, hseg2, ?_, fun h => by omega⟩
    have hsplit : p + 1 - m = (p + 1 - r) + L := by omega
    have hexp : win a' m (p + 1 - m) = win a r (p + 1 - r) ++ win a m L := by
      rw [hsplit, win_append]
      congr 1
      · exact win_shift _ fun t ht => hseg1 t ht
      · exact win_shift _ fun t ht => by
          have e : m + (p + 1 - r) + t = m + (p + 1 - r) + t := rfl
          exact hseg2 t ht
    have hexp2 : win a m (p + 1 - m) = win a m L ++ win a r (p + 1 - r) := by
      have hsplit2 : p + 1 - m = L + (p + 1 - r) := by omega
      rw [hsplit2, win_append]
      congr 2
      omega
    rw [hexp, hexp2]
    exact List.perm_append_comm

/-! ## Frame lemmas: writes of each routine stay inside its window -/

lemma insShift_okFrame (len lo : Nat) (key : Int) :
    ∀ j a a' t, insShift len lo key a j = .ok (a', t) →
    ∀ k, k < lo ∨ lo + len ≤ k → a' k = a k := by
  intro j
  induction j with
  | zero =>
      intro a a' t heq k hk
      simp only [insShift] at heq
      cases heq
      rfl
  | succ j ih =>
      intro a a' t heq k hk
      simp only [insShift, rdR, wrR] at heq
      by_cases hjl : j < len
      · rw [if_pos hjl] at heq
        simp only [pure_eq_ok, ok_bind] at heq
        by_cases hkey : key < a (lo + j)
        · rw [if_pos hkey] at heq
          by_cases hj1 : j + 1 < len
          · rw [if_pos hj1] at heq
            simp only [pure_eq_ok, ok_bind] at heq
            have hk2 := ih _ _ _ heq k hk
            rw [hk2, Function.update_noteq (show k ≠ lo + (j + 1) by omega)]
          · rw [if_neg hj1] at heq
            simp at heq
        · rw [if_neg hkey] at heq
          cases heq
          rfl
      · rw [if_neg hjl] at heq
        simp at heq

lemma insStep_okFrame (len lo : Nat) (a : A) (i : Nat) (a' : A)
    (heq : insStep len lo a i = .ok a') :
    ∀ k, k < lo ∨ lo + len ≤ k → a' k = a k := by
  intro k hk
  simp only [insStep, rdR] at heq
  by_cases hil : i < len
  · rw [if_pos hil] at heq
    simp only [pure_eq_ok, ok_bind] at heq
    rcases hsh : insShift len lo (a (lo + i)) a i with v | ⟨b, t⟩
    · rw [hsh] at heq
      simp at heq
    · rw [hsh] at heq
      simp only [ok_bind, wrR] at heq
      by_cases htl : t < len
      · rw [if_pos htl] at heq
        simp only [pure_eq_ok] at heq
        cases heq
        rw [Function.update_noteq (show k ≠ lo + t by omega)]
        exact insShift_okFrame len lo _ i a b t hsh k hk
      · rw [if_neg htl] at heq
        simp at heq
  · rw [if_neg hil] at heq
    simp at heq

lemma insLoop_okFrame (len lo : Nat) :
    ∀ c a i a', insLoop len lo a c i = .ok a' →
    ∀ k, k < lo ∨ lo + len ≤ k → a' k = a k := by
  intro c
  induction c with
  | zero =>
      intro a i a' heq k hk
      simp only [insLoop] at heq
      cases heq
      rfl
  | succ c ih =>
      intro a i a' heq k hk
      simp only [insLoop] at heq
      rcases hst : insStep len lo a i with v | b
      · rw [hst] at heq
        simp at heq
      · rw [hst] at heq
        simp only [ok_bind] at heq
        rw [ih _ _ _ heq k hk]
        exact insStep_okFrame len lo a i b hst k hk

lemma insRange_okFrame (n : Nat) (a : A) (s e : Nat) (a' : A)
    (heq : insRange n a s e = .ok a') :
    ∀ k, k < s ∨ e < k → a' k = a k := by
  intro k hk
  simp only [insRange] at heq
  by_cases hc : s ≤ e + 1 ∧ e < n
  · rw [if_pos hc] at heq
    by_cases hlen : e + 1 - s < 2
    · rw [if_pos hlen] at heq
      simp only [pure_eq_ok] at heq
      cases heq
      rfl
    · rw [if_neg hlen] at heq
      exact insLoop_okFrame (e + 1 - s) s _ a 1 a' heq k (by omega)
  · rw [if_neg hc] at heq
    simp at heq

/-- Frame property of the wave routines: whenever a call returns, it has
modified no cell before `start` or after `end` (downwave also needs its
documented index preconditions `start ≤ sorted_start ≤ end < n`). -/
lemma waveFrame : ∀ fuel : Nat,
    (∀ n a s ss e a', s ≤ ss → ss ≤ e → e < n →
      downwaveM fuel n a s ss e = .ok a' → ∀ k, k < s ∨ e < k → a' k = a k) ∧
    (∀ n a s e a', s ≤ e → e < n →
      upwaveM fuel n a s e = .ok a' → ∀ k, k < s ∨ e < k → a' k = a k) ∧
    (∀ n a s e tl ss lb a', s ≤ lb → lb ≤ ss → ss ≤ e → e < n →
      upLoopM fuel n a s e tl ss lb = .ok a' → ∀ k, k < s ∨ e < k → a' k = a k) := by
  intro fuel
  induction fuel with
  | zero =>
      refine ⟨?_, ?_, ?_⟩
      · intro n a s ss e a' _ _ _ heq
        simp [downwaveM] at heq
      · intro n a s e a' _ _ heq
        simp [upwaveM] at heq
      · intro n a s e tl ss lb a' _ _ _ _ heq
        simp [upLoopM] at heq
  | succ fuel ih =>
      obtain ⟨ihd, ihu, ihl⟩ := ih
      refine ⟨?_, ?_, ?_⟩
      · -- downwave
        intro n a s ss e a' hsss hsse hen heq k hk
        simp only [downwaveM] at heq
        by_cases hss : ss = s
        · rw [if_pos hss] at heq
          cases heq
          rfl
        · rw [if_neg hss] at heq
          have hlt : s < ss := by omega
          rw [show csub e s = .ok (e - s) from by simp [csub]; omega] at heq
          rw [ok_bind] at heq
          by_cases hth : e - s ≤ insertionThreshold
          · rw [if_pos hth] at heq
            exact insRange_okFrame n a s e a' heq k hk
          · rw [if_neg hth] at heq
            rw [show csub e ss = .ok (e - ss) from by simp [csub]; omega] at heq
            rw [ok_bind] at heq
            set p := ss + (e - ss) / 2 with hpdef
            have hpss : ss ≤ p := by omega
            have hpe : p ≤ e := by omega
            have hpn : p < n := by omega
            obtain ⟨a1, m, hpart, hm1, hm2, hpframe, hpperm, hbel, habv⟩ :=
              partitionM_spec n a s ss p (by omega) (by omega) hpn
            rw [hpart, ok_bind] at heq
            simp only at heq
            have ha1k : a1 k = a k := hpframe k (by omega)
            by_cases hmss : m = ss
            · rw [if_pos hmss] at heq
              by_cases hpssq : p = ss
              · rw [if_pos hpssq] at heq
                by_cases hss0 : ss > 0
                · rw [if_pos hss0] at heq
                  rw [ihu n a1 s (ss - 1) a' (by omega) (by omega) heq k
                    (by omega), ha1k]
                · rw [if_neg hss0] at heq
                  cases heq
                  exact ha1k
              · rw [if_neg hpssq] at heq
                have hpgt : ss < p := by omega
                by_cases hp0 : p > 0
                · rw [if_pos hp0] at heq
                  rw [ihd n a1 s ss (p - 1) a' (by omega) (by omega) (by omega)
                    heq k (by omega), ha1k]
                · rw [if_neg hp0] at heq
                  cases heq
                  exact ha1k
            · rw [if_neg hmss] at heq
              have hmlt : m < ss := by omega
              obtain ⟨a2, hbs, hbsframe, hseg1, hseg2, hbsperm, hnoop⟩ :=
                blockSwapM_spec n a1 m ss p (by omega) hpss hpn
              rw [hbs, ok_bind] at heq
              have ha2k : a2 k = a k := by
                rw [hbsframe k (by omega), ha1k]
              by_cases hms : m = s
              · rw [if_pos hms] at heq
                by_cases hpssq : p = ss
                · rw [if_pos hpssq] at heq
                  rw [ihu n a2 (m + 1) e a' (by omega) (by omega) heq k
                    (by omega), ha2k]
                · rw [if_neg hpssq] at heq
                  have hpgt : ss < p := by omega
                  have hple : p + 1 ≤ e := by omega
                  rw [show csub (m + (p + 1)) ss = .ok (m + (p + 1) - ss) from
                    by simp [csub]; omega] at heq
                  rw [ok_bind] at heq
                  rw [ihd n a2 (m + (p + 1) - ss) (p + 1) e a' (by omega)
                    (by omega) (by omega) heq k (by omega), ha2k]
              · rw [if_neg hms] at heq
                have hmgt : s < m := by omega
                by_cases hpssq : p = ss
                · rw [if_pos hpssq] at heq
                  rw [if_pos (show m > 0 by omega)] at heq
                  rcases h3 : upwaveM fuel n a2 s (m - 1) with v | a3
                  · rw [h3] at heq
                    simp at heq
                  · rw [h3, ok_bind] at heq
                    have ha3k : a3 k = a k := by
                      rw [ihu n a2 s (m - 1) a3 (by omega) (by omega) h3 k
                        (by omega), ha2k]
                    rw [ihu n a3 (m + 1) e a' (by omega) (by omega) heq k
                      (by omega), ha3k]
                · rw [if_neg hpssq] at heq
                  have hpgt : ss < p := by omega
                  have hple : p + 1 ≤ e := by omega
                  rw [show csub p ss = .ok (p - ss) from by simp [csub]; omega]
                    at heq
                  rw [ok_bind] at heq
                  set sp := m + (p - ss) with hspdef
                  have hsp1 : m + 1 ≤ sp := by omega
                  have hsple : sp ≤ p := by omega
                  rw [if_pos (show sp > 0 by omega)] at heq
                  rcases h3 : downwaveM fuel n a2 s m (sp - 1) with v | a3
                  · rw [h3] at heq
                    simp at heq
                  · rw [h3, ok_bind] at heq
                    have ha3k : a3 k = a k := by
                      rw [ihd n a2 s m (sp - 1) a3 (by omega) (by omega)
                        (by omega) h3 k (by omega), ha2k]
                    rw [ihd n a3 (sp + 1) (p + 1) e a' (by omega) (by omega)
                      (by omega) heq k (by omega), ha3k]
      · -- upwave
        intro n a s e a' hse hen heq k hk
        simp only [upwaveM] at heq
        by_cases hs : s = e
        · rw [if_pos hs] at heq
          cases heq
          rfl
        · rw [if_neg hs] at heq
          have hlt : s < e := by omega
          rw [show csub e s = .ok (e - s) from by simp [csub]; omega] at heq
          rw [ok_bind] at heq
          by_cases hth : e - s ≤ insertionThreshold
          · rw [if_pos hth] at heq
            exact insRange_okFrame n a s e a' heq k hk
          · rw [if_neg hth] at heq
            by_cases he0 : e = 0
            · rw [if_pos he0] at heq
              cases heq
              rfl
            · rw [if_neg he0] at heq
              rw [ok_bind] at heq
              exact ihl n a s e (e - s + 1) e (e - 1) a' (by omega) (by omega)
                (le_refl e) hen heq k hk
      · -- upLoop
        intro n a s e tl ss lb a' hslb hlbss hsse hen heq k hk
        simp only [upLoopM] at heq
        rcases h1 : downwaveM fuel n a lb ss e with v | a1
        · rw [h1] at heq
          simp at heq
        · rw [h1, ok_bind] at heq
          have ha1k : a1 k = a k :=
            ihd n a lb ss e a1 hlbss hsse hen h1 k (by omega)
          rw [show csub e lb = .ok (e - lb) from by simp [csub]; omega] at heq
          rw [ok_bind] at heq
          by_cases hbrk : tl < (e - lb + 1) * 4
          · rw [if_pos hbrk] at heq
            rw [ihd n a1 s lb e a' hslb (by omega) hen heq k hk, ha1k]
          · rw [if_neg hbrk] at heq
            by_cases hsss : lb = s
            · rw [if_pos hsss] at heq
              rw [ihd n a1 s lb e a' hslb (by omega) hen heq k hk, ha1k]
            · rw [if_neg hsss] at heq
              set ne2 := (e - lb + 1) * 2 + 1 with hne2
              set lb1 := if e < ne2 then s else if e - ne2 < s then s
                else e - ne2 with hlb1
              set lb2 := if lb1 < s then s else lb1 with hlb2
              have hlb2s : s ≤ lb2 := by
                rw [hlb2]
                split
                · exact le_refl s
                · omega
              have hlb2lb : lb2 ≤ lb := by
                have h1b : lb1 ≤ lb := by
                  rw [hlb1]
                  split
                  · exact hslb
                  · split
                    · exact hslb
                    · omega
                rw [hlb2]
                split
                · exact hslb
                · exact h1b
              rw [ihl n a1 s e tl lb lb2 a' hlb2s hlb2lb (by omega) hen heq k
                hk, ha1k]

/-! ## Fuel monotonicity: any outcome other than fuel exhaustion is stable -/

lemma waveMono : ∀ fuel : Nat,
    (∀ n a s ss e r, downwaveM fuel n a s ss e = r → r ≠ .error .fuelOut →
      downwaveM (fuel + 1) n a s ss e = r) ∧
    (∀ n a s e r, upwaveM fuel n a s e = r → r ≠ .error .fuelOut →
      upwaveM (fuel + 1) n a s e = r) ∧
    (∀ n a s e tl ss lb r, upLoopM fuel n a s e tl ss lb = r →
      r ≠ .error .fuelOut → upLoopM (fuel + 1) n a s e tl ss lb = r) := by
  intro fuel
  induction fuel with
  | zero =>
      refine ⟨?_, ?_, ?_⟩
      · intro n a s ss e r heq hne
        simp only [downwaveM] at heq
        exact absurd heq.symm hne
      · intro n a s e r heq hne
        simp only [upwaveM] at heq
        exact absurd heq.symm hne
      · intro n a s e tl ss lb r heq hne
        simp only [upLoopM] at heq
        exact absurd heq.symm hne
  | succ fuel ih =>
      obtain ⟨ihd, ihu, ihl⟩ := ih
      refine ⟨?_, ?_, ?_⟩
      · -- downwave
        intro n a s ss e r heq hne
        obtain ⟨F, hF⟩ : ∃ F, fuel + 1 = F := ⟨fuel + 1, rfl⟩
        rw [show fuel + 1 + 1 = F + 1 from by rw [hF]]
        simp only [downwaveM] at heq ⊢
        by_cases hss : ss = s
        · rw [if_pos hss] at heq ⊢
          exact heq
        · rw [if_neg hss] at heq ⊢
          rcases hcs : csub e s with f | d
          · rw [hcs] at heq
            rw [error_bind] at heq ⊢
            exact heq
          · rw [hcs, ok_bind] at heq; rw [ok_bind]
            by_cases hth : d ≤ insertionThreshold
            · rw [if_pos hth] at heq ⊢
              exact heq
            · rw [if_neg hth] at heq ⊢
              rcases hcs2 : csub e ss with f | d2
              · rw [hcs2] at heq
                rw [error_bind] at heq ⊢
                exact heq
              · rw [hcs2, ok_bind] at heq; rw [ok_bind]
                rcases hp : partitionM n a s ss (ss + d2 / 2) with f | r1
                · rw [hp] at heq
                  rw [error_bind] at heq ⊢
                  exact heq
                · rw [hp, ok_bind] at heq; rw [ok_bind]
                  obtain ⟨a1, m⟩ := r1
                  simp only at heq ⊢
                  by_cases hmss : m = ss
                  · rw [if_pos hmss] at heq ⊢
                    by_cases hpss : ss + d2 / 2 = ss
                    · rw [if_pos hpss] at heq ⊢
                      by_cases hss0 : ss > 0
                      · rw [if_pos hss0] at heq ⊢
                        rw [← hF]
                        exact ihu _ _ _ _ _ heq hne
                      · rw [if_neg hss0] at heq ⊢
                        exact heq
                    · rw [if_neg hpss] at heq ⊢
                      by_cases hp0 : ss + d2 / 2 > 0
                      · rw [if_pos hp0] at heq ⊢
                        rw [← hF]
                        exact ihd _ _ _ _ _ _ heq hne
                      · rw [if_neg hp0] at heq ⊢
                        exact heq
                  · rw [if_neg hmss] at heq ⊢
                    rcases hbs : blockSwapM n a1 m ss (ss + d2 / 2) with f | a2
                    · rw [hbs] at heq
                      rw [error_bind] at heq ⊢
                      exact heq
                    · rw [hbs, ok_bind] at heq; rw [ok_bind]
                      by_cases hms : m = s
                      · rw [if_pos hms] at heq ⊢
                        by_cases hpss : ss + d2 / 2 = ss
                        · rw [if_pos hpss] at heq ⊢
                          rw [← hF]
                          exact ihu _ _ _ _ _ heq hne
                        · rw [if_neg hpss] at heq ⊢
                          rcases hcs3 : csub (m + (ss + d2 / 2 + 1)) ss with f | d3
                          · rw [hcs3] at heq
                            rw [error_bind] at heq ⊢
                            exact heq
                          · rw [hcs3, ok_bind] at heq; rw [ok_bind]
                            rw [← hF]
                            exact ihd _ _ _ _ _ _ heq hne
                      · rw [if_neg hms] at heq ⊢
                        by_cases hpss : ss + d2 / 2 = ss
                        · rw [if_pos hpss] at heq ⊢
                          by_cases hm0 : m > 0
                          · rw [if_pos hm0] at heq ⊢
                            rcases h3 : upwaveM fuel n a2 s (m - 1) with f | a3
                            · rw [h3, error_bind] at heq
                              have hf : (Except.error f : M A) ≠
                                  Except.error Fault.fuelOut := by
                                intro hc
                                rw [← heq] at hne
                                exact hne hc
                              rw [← hF, ihu _ _ _ _ _ h3 hf, error_bind]
                              exact heq
                            · rw [h3, ok_bind] at heq
                              have hok : (Except.ok a3 : M A) ≠
                                  Except.error Fault.fuelOut := by
                                intro hc
                                cases hc
                              rw [← hF, ihu _ _ _ _ _ h3 hok, ok_bind]
                              exact ihu _ _ _ _ _ heq hne
                          · rw [if_neg hm0] at heq ⊢
                            simp only [pure_eq_ok, ok_bind] at heq ⊢
                            rw [← hF]
                            exact ihu _ _ _ _ _ heq hne
                        · rw [if_neg hpss] at heq ⊢
                          rcases hcs3 : csub (ss + d2 / 2) ss with f | d4
                          · rw [hcs3] at heq
                            rw [error_bind] at heq ⊢
                            exact heq
                          · rw [hcs3, ok_bind] at heq; rw [ok_bind]
                            by_cases hsp0 : m + d4 > 0
                            · rw [if_pos hsp0] at heq ⊢
                              rcases h3 : downwaveM fuel n a2 s m (m + d4 - 1)
                                  with f | a3
                              · rw [h3, error_bind] at heq
                                have hf : (Except.error f : M A) ≠
                                    Except.error Fault.fuelOut := by
                                  intro hc
                                  rw [← heq] at hne
                                  exact hne hc
                                rw [← hF, ihd _ _ _ _ _ _ h3 hf, error_bind]
                                exact heq
                              · rw [h3, ok_bind] at heq
                                have hok : (Except.ok a3 : M A) ≠
                                    Except.error Fault.fuelOut := by
                                  intro hc
                                  cases hc
                                rw [← hF, ihd _ _ _ _ _ _ h3 hok, ok_bind]
                                exact ihd _ _ _ _ _ _ heq hne
                            · rw [if_neg hsp0] at heq ⊢
                              simp only [pure_eq_ok, ok_bind] at heq ⊢
                              rw [← hF]
                              exact ihd _ _ _ _ _ _ heq hne
      · -- upwave
        intro n a s e r heq hne
        obtain ⟨F, hF⟩ : ∃ F, fuel + 1 = F := ⟨fuel + 1, rfl⟩
        rw [show fuel + 1 + 1 = F + 1 from by rw [hF]]
        simp only [upwaveM] at heq ⊢
        by_cases hs : s = e
        · rw [if_pos hs] at heq ⊢
          exact heq
        · rw [if_neg hs] at heq ⊢
          rcases hcs : csub e s with f | d
          · rw [hcs] at heq
            rw [error_bind] at heq ⊢
            exact heq
          · rw [hcs, ok_bind] at heq; rw [ok_bind]
            by_cases hth : d ≤ insertionThreshold
            · rw [if_pos hth] at heq ⊢
              exact heq
            · rw [if_neg hth] at heq ⊢
              by_cases he0 : e = 0
              · rw [if_pos he0] at heq ⊢
                exact heq
              · rw [if_neg he0] at heq ⊢
                rw [ok_bind] at heq ⊢
                rw [← hF]
                exact ihl _ _ _ _ _ _ _ _ heq hne
      · -- upLoop
        intro n a s e tl ss lb r heq hne
        obtain ⟨F, hF⟩ : ∃ F, fuel + 1 = F := ⟨fuel + 1, rfl⟩
        rw [show fuel + 1 + 1 = F + 1 from by rw [hF]]
        simp only [upLoopM] at heq ⊢
        rcases h1 : downwaveM fuel n a lb ss e with f | a1
        · rw [h1, error_bind] at heq
          have hf : (Except.error f : M A) ≠ Except.error Fault.fuelOut := by
            intro hc
            rw [← heq] at hne
            exact hne hc
          rw [← hF, ihd _ _ _ _ _ _ h1 hf, error_bind]
          exact heq
        · rw [h1, ok_bind] at heq
          have hok : (Except.ok a1 : M A) ≠ Except.error Fault.fuelOut := by
            intro hc
            cases hc
          rw [← hF, ihd _ _ _ _ _ _ h1 hok, ok_bind]
          rcases hcs : csub e lb with f | d
          · rw [hcs] at heq
            rw [error_bind] at heq ⊢
            exact heq
          · rw [hcs, ok_bind] at heq; rw [ok_bind]
            by_cases hbrk : tl < (d + 1) * 4
            · rw [if_pos hbrk] at heq ⊢
              exact ihd _ _ _ _ _ _ heq hne
            · rw [if_neg hbrk] at heq ⊢
              by_cases hsss : lb = s
              · rw [if_pos hsss] at heq ⊢
                exact ihd _ _ _ _ _ _ heq hne
              · rw [if_neg hsss] at heq ⊢
                exact ihl _ _ _ _ _ _ _ _ heq hne

lemma downwaveM_mono_le {f f' n : Nat} {a : A} {s ss e : Nat} {r : M A}
    (h : f ≤ f') (heq : downwaveM f n a s ss e = r)
    (hne : r ≠ .error .fuelOut) : downwaveM f' n a s ss e = r := by
  induction f' with
  | zero =>
      have he : f = 0 := by omega
      rw [← he]
      exact heq
  | succ f' ih =>
      rcases Nat.eq_or_lt_of_le h with he | hlt
      · rw [← he]
        exact heq
      · exact (waveMono f').1 _ _ _ _ _ _ (ih (by omega)) hne

lemma upwaveM_mono_le {f f' n : Nat} {a : A} {s e : Nat} {r : M A}
    (h : f ≤ f') (heq : upwaveM f n a s e = r)
    (hne : r ≠ .error .fuelOut) : upwaveM f' n a s e = r := by
  induction f' with
  | zero =>
      have he : f = 0 := by omega
      rw [← he]
      exact heq
  | succ f' ih =>
      rcases Nat.eq_or_lt_of_le h with he | hlt
      · rw [← he]
        exact heq
      · exact (waveMono f').2.1 _ _ _ _ _ (ih (by omega)) hne

lemma upLoopM_mono_le {f f' n : Nat} {a : A} {s e tl ss lb : Nat} {r : M A}
    (h : f ≤ f') (heq : upLoopM f n a s e tl ss lb = r)
    (hne : r ≠ .error .fuelOut) : upLoopM f' n a s e tl ss lb = r := by
  induction f' with
  | zero =>
      have he : f = 0 := by omega
      rw [← he]
      exact heq
  | succ f' ih =>
      rcases Nat.eq_or_lt_of_le h with he | hlt
      · rw [← he]
        exact heq
      · exact (waveMono f').2.2 _ _ _ _ _ _ _ _ (ih (by omega)) hne

lemma ok_ne_fuelOut {x : A} : (Except.ok x : M A) ≠ .error .fuelOut := by
  intro hc
  cases hc

/-- Glue two sorted stretches across their boundary pair. -/
lemma sortedOn_join {a : A} {s q e : Nat} (h1 : SortedOn a s q)
    (h2 : SortedOn a (q + 1) e) (hb : a q ≤ a (q + 1)) : SortedOn a s e := by
  intro k hk1 hk2
  rcases Nat.lt_trichotomy k q with h | h | h
  · exact h1 k hk1 h
  · rw [h]
    exact hb
  · exact h2 k (by omega) hk2

/-! ## Main correctness of the wave routines -/

/-- Main specification, by induction on twice the window width:
`downwave` (given its sorted suffix) and `upwave` sort their window in
place, rearranging nothing outside it. -/
lemma waveMain : ∀ N : Nat,
    (∀ n a s ss e, 2 * (e - s) + 1 ≤ N → s ≤ ss → ss ≤ e → e < n →
      SortedOn a ss e → ∃ fuel a', downwaveM fuel n a s ss e = .ok a' ∧
        Rearr s e a a' ∧ SortedOn a' s e) ∧
    (∀ n a s e, 2 * (e - s) + 2 ≤ N → s ≤ e → e < n →
      ∃ fuel a', upwaveM fuel n a s e = .ok a' ∧ Rearr s e a a' ∧
        SortedOn a' s e) := by
  intro N
  induction N with
  | zero =>
      constructor
      · intro n a s ss e hN
        omega
      · intro n a s e hN
        omega
  | succ N ih =>
      obtain ⟨ihd, ihu⟩ := ih
      constructor
      · -- downwave
        intro n a s ss e hN hsss hsse hen hsorted
        by_cases hss : ss = s
        · refine ⟨1, a, ?_, rearr_refl _ _ _, hss ▸ hsorted⟩
          simp [downwaveM, if_pos hss]
        · by_cases hth : e - s ≤ insertionThreshold
          · obtain ⟨a', heq, hre, hs'⟩ := insRange_spec n a s e (by omega) hen
            refine ⟨1, a', ?_, hre, hs'⟩
            simp only [downwaveM]
            rw [if_neg hss, show csub e s = .ok (e - s) from by simp [csub]; omega,
              ok_bind, if_pos hth]
            exact heq
          · set p := ss + (e - ss) / 2 with hp
            have hslt : s < ss := by omega
            have hpss : ss ≤ p := by omega
            have hpe : p ≤ e := by omega
            have hpn : p < n := by omega
            obtain ⟨a1, m, hpart, hm1, hm2, hpfr, hpperm, hbel, habv⟩ :=
              partitionM_spec n a s ss p (by omega) (by omega) hpn
            set piv := a p with hpiv
            have ha1suf : ∀ k, ss ≤ k → a1 k = a k := fun k hk => hpfr k (Or.inr hk)
            have hsorted1 : SortedOn a1 ss e :=
              sortedOn_congr (fun k h1 _ => (ha1suf k h1).symm) hsorted
            have hsufLe : ∀ u, ss ≤ u → u ≤ p → a u ≤ piv :=
              fun u h1 h2 => sortedOn_le hsorted h1 h2 (by omega)
            have hsufGe : ∀ u, p ≤ u → u ≤ e → piv ≤ a u :=
              fun u h1 h2 => sortedOn_le hsorted (by omega) h1 h2
            have hre1 : Rearr s ss a a1 :=
              ⟨fun k hk => hpfr k (hk.imp id Nat.le_of_lt), hpperm⟩
            have hre1e : Rearr s e a a1 := rearr_mono hre1 (le_refl s) hsse (by omega)
            by_cases hmss : m = ss
            · by_cases hpssq : p = ss
              · -- collapsed partition, pivot at the suffix edge: upwave the prefix
                obtain ⟨F1, a2, hup, hreU, hsU⟩ := ihu n a1 s (ss - 1)
                  (by omega) (by omega) (by omega)
                refine ⟨F1 + 1, a2, ?_, ?_, ?_⟩
                · simp only [downwaveM]
                  rw [if_neg hss, show csub e s = .ok (e - s) from
                    by simp [csub]; omega, ok_bind, if_neg hth,
                    show csub e ss = .ok (e - ss) from by simp [csub]; omega,
                    ok_bind, ← hp, hpart, ok_bind]
                  simp only
                  rw [if_pos hmss, if_pos hpssq, if_pos (show ss > 0 by omega)]
                  exact hup
                · exact rearr_trans hre1e
                    (rearr_mono hreU (le_refl s) (by omega) (by omega))
                · have hval2 : ∀ u, s ≤ u → u ≤ ss - 1 → a2 u < piv :=
                    rearr_all_mem (P := fun x => x < piv) hreU (fun u h1 h2 => hbel u h1 (by omega))
                  have hs2suf : SortedOn a2 ss e := sortedOn_congr
                    (fun k h1 h2 => (hreU.1 k (Or.inr (by omega))).symm) hsorted1
                  have ha2ss : a2 ss = piv := by
                    rw [hreU.1 ss (Or.inr (by omega)), ha1suf ss (le_refl ss),
                      hpiv, hpssq]
                  refine sortedOn_join (q := ss - 1) hsU ?_ ?_
                  · rw [show ss - 1 + 1 = ss by omega]
                    exact hs2suf
                  · rw [show ss - 1 + 1 = ss by omega, ha2ss]
                    exact le_of_lt (hval2 (ss - 1) (by omega) (le_refl _))
              · -- collapsed partition, pivot inside: shrink the suffix
                have hpgt : ss < p := by omega
                obtain ⟨F1, a2, hdw, hreD, hsD⟩ := ihd n a1 s ss (p - 1)
                  (by omega) hsss (by omega) (by omega)
                  (sortedOn_mono hsorted1 (le_refl ss) (by omega))
                refine ⟨F1 + 1, a2, ?_, ?_, ?_⟩
                · simp only [downwaveM]
                  rw [if_neg hss, show csub e s = .ok (e - s) from
                    by simp [csub]; omega, ok_bind, if_neg hth,
                    show csub e ss = .ok (e - ss) from by simp [csub]; omega,
                    ok_bind, ← hp, hpart, ok_bind]
                  simp only
                  rw [if_pos hmss, if_neg hpssq, if_pos (show p > 0 by omega)]
                  exact hdw
                · exact rearr_trans hre1e
                    (rearr_mono hreD (le_refl s) (by omega) (by omega))
                · have hvals1 : ∀ u, s ≤ u → u ≤ p - 1 → a1 u ≤ piv := by
                    intro u h1 h2
                    rcases Nat.lt_or_ge u ss with h | h
                    · exact le_of_lt (hbel u h1 (by omega))
                    · rw [ha1suf u h]
                      exact hsufLe u h (by omega)
                  have hval2 : ∀ u, s ≤ u → u ≤ p - 1 → a2 u ≤ piv :=
                    rearr_all_mem (P := fun x => x ≤ piv) hreD hvals1
                  have hs2suf : SortedOn a2 p e := sortedOn_congr
                    (fun k h1 h2 => ((hreD.1 k (Or.inr (by omega))).trans
                      (ha1suf k (by omega))).symm)
                    (sortedOn_mono hsorted (by omega) (le_refl e))
                  have ha2p : a2 p = piv := by
                    rw [hreD.1 p (Or.inr (by omega)), ha1suf p (by omega)]
                  refine sortedOn_join (q := p - 1) hsD ?_ ?_
                  · rw [show p - 1 + 1 = p by omega]
                    exact hs2suf
                  · rw [show p - 1 + 1 = p by omega, ha2p]
                    exact hval2 (p - 1) (by omega) (le_refl _)
            · -- genuine split: rotate then recurse
              have hmlt : m < ss := by omega
              obtain ⟨a2, hbseq, hbsfr, hseg1, hseg2, hbsperm, hnoop⟩ :=
                blockSwapM_spec n a1 m ss p hm2 hpss hpn
              set q := m + (p - ss) with hq
              have hqp : q ≤ p := by omega
              have ha2win1 : ∀ t, t ≤ p - ss → a2 (m + t) = a (ss + t) := by
                intro t ht
                rw [hseg1 t (by omega), ha1suf (ss + t) (by omega)]
              have ha2q : a2 q = piv := by
                rw [hq, ha2win1 (p - ss) (le_refl _), show ss + (p - ss) = p
                  by omega]
              have hA : SortedOn a2 m q := by
                intro k h1 h2
                have hx := ha2win1 (k - m) (by omega)
                have hy := ha2win1 (k - m + 1) (by omega)
                rw [show m + (k - m) = k by omega] at hx
                rw [show m + (k - m + 1) = k + 1 by omega,
                  show ss + (k - m + 1) = ss + (k - m) + 1 by omega] at hy
                rw [hx, hy]
                exact hsorted (ss + (k - m)) (by omega) (by omega)
              have hAle : ∀ u, m ≤ u → u ≤ q → a2 u ≤ piv := by
                intro u h1 h2
                have e1 : u = m + (u - m) := by omega
                rw [e1, ha2win1 (u - m) (by omega)]
                exact hsufLe (ss + (u - m)) (by omega) (by omega)
              have hBge : ∀ u, q + 1 ≤ u → u ≤ p → piv ≤ a2 u := by
                intro u h1 h2
                have e1 : u = m + (p + 1 - ss) + (u - q - 1) := by omega
                rw [e1, hseg2 (u - q - 1) (by omega)]
                exact habv (m + (u - q - 1)) (by omega) (by omega)
              have hCge : ∀ u, p + 1 ≤ u → u ≤ e → piv ≤ a2 u := by
                intro u h1 h2
                rw [hbsfr u (Or.inr (by omega)), ha1suf u (by omega)]
                exact hsufGe u (by omega) h2
              have hDlt : ∀ u, s ≤ u → u < m → a2 u < piv := by
                intro u h1 h2
                rw [hbsfr u (Or.inl h2)]
                exact hbel u h1 h2
              have hre2 : Rearr s e a1 a2 :=
                rearr_mono ⟨hbsfr, hbsperm⟩ (by omega) (by omega) (by omega)
              have hre2e : Rearr s e a a2 := rearr_trans hre1e hre2
              have hsortedTail : SortedOn a2 (p + 1) e := sortedOn_congr
                (fun k h1 h2 => ((hbsfr k (Or.inr (by omega))).trans
                  (ha1suf k (by omega))).symm)
                (sortedOn_mono hsorted (by omega) (le_refl e))
              by_cases hms : m = s
              · by_cases hpssq : p = ss
                · -- left side empty, pivot at edge: upwave the tail
                  have hqm : q = m := by omega
                  obtain ⟨F1, a3, hup, hreU, hsU⟩ := ihu n a2 (m + 1) e
                    (by omega) (by omega) hen
                  refine ⟨F1 + 1, a3, ?_, ?_, ?_⟩
                  · simp only [downwaveM]
                    rw [if_neg hss, show csub e s = .ok (e - s) from
                      by simp [csub]; omega, ok_bind, if_neg hth,
                      show csub e ss = .ok (e - ss) from by simp [csub]; omega,
                      ok_bind, ← hp, hpart, ok_bind]
                    simp only
                    rw [if_neg hmss, hbseq, ok_bind, if_pos hms, if_pos hpssq]
                    exact hup
                  · exact rearr_trans hre2e
                      (rearr_mono hreU (by omega) (le_refl e) (by omega))
                  · have hge2 : ∀ u, m + 1 ≤ u → u ≤ e → piv ≤ a2 u := by
                      intro u h1 h2
                      rcases le_or_lt u p with h | h
                      · exact hBge u (by omega) h
                      · exact hCge u (by omega) h2
                    have hge3 : ∀ u, m + 1 ≤ u → u ≤ e → piv ≤ a3 u :=
                      rearr_all_mem (P := fun x => piv ≤ x) hreU hge2
                    have ha3m : a3 m = piv := by
                      rw [hreU.1 m (Or.inl (by omega)), ← hqm, ha2q]
                    refine sortedOn_join (q := m)
                      (sortedOn_trivial (by omega)) hsU ?_
                    rw [ha3m]
                    exact hge3 (m + 1) (le_refl _) (by omega)
                · -- left side empty: continue downwave on the rotated right part
                  have hpgt : ss < p := by omega
                  have hple : p + 1 ≤ e := by omega
                  obtain ⟨F1, a3, hdw, hreD, hsD⟩ := ihd n a2 (q + 1) (p + 1) e
                    (by omega) (by omega) (by omega) hen hsortedTail
                  refine ⟨F1 + 1, a3, ?_, ?_, ?_⟩
                  · simp only [downwaveM]
                    rw [if_neg hss, show csub e s = .ok (e - s) from
                      by simp [csub]; omega, ok_bind, if_neg hth,
                      show csub e ss = .ok (e - ss) from by simp [csub]; omega,
                      ok_bind, ← hp, hpart, ok_bind]
                    simp only
                    have hcsq : csub (m + (p + 1)) ss = .ok (q + 1) := by
                      rw [csub, if_pos (show ss ≤ m + (p + 1) by omega)]
                      simp only [pure_eq_ok]
                      congr 1
                      omega
                    rw [if_neg hmss, hbseq, ok_bind, if_pos hms, if_neg hpssq,
                      hcsq, ok_bind]
                    exact hdw
                  · exact rearr_trans hre2e
                      (rearr_mono hreD (by omega) (le_refl e) (by omega))
                  · have hA3 : SortedOn a3 m q := sortedOn_congr
                      (fun k h1 h2 => (hreD.1 k (Or.inl (by omega))).symm) hA
                    have ha3q : a3 q = piv := by
                      rw [hreD.1 q (Or.inl (by omega)), ha2q]
                    have hge2 : ∀ u, q + 1 ≤ u → u ≤ e → piv ≤ a2 u := by
                      intro u h1 h2
                      rcases le_or_lt u p with h | h
                      · exact hBge u h1 h
                      · exact hCge u (by omega) h2
                    have hge3 : ∀ u, q + 1 ≤ u → u ≤ e → piv ≤ a3 u :=
                      rearr_all_mem (P := fun x => piv ≤ x) hreD hge2
                    have hjoin : SortedOn a3 m e := by
                      refine sortedOn_join (q := q) hA3 hsD ?_
                      rw [ha3q]
                      exact hge3 (q + 1) (le_refl _) (by omega)
                    rw [hms] at hjoin
                    exact hjoin
              · by_cases hpssq : p = ss
                · -- pivot at edge, both sides nonempty: upwave both
                  have hqm : q = m := by omega
                  obtain ⟨F1, a3, hup1, hre3, hs3⟩ := ihu n a2 s (m - 1)
                    (by omega) (by omega) (by omega)
                  obtain ⟨F2, a4, hup2, hre4, hs4⟩ := ihu n a3 (m + 1) e
                    (by omega) (by omega) hen
                  refine ⟨max F1 F2 + 1, a4, ?_, ?_, ?_⟩
                  · simp only [downwaveM]
                    rw [if_neg hss, show csub e s = .ok (e - s) from
                      by simp [csub]; omega, ok_bind, if_neg hth,
                      show csub e ss = .ok (e - ss) from by simp [csub]; omega,
                      ok_bind, ← hp, hpart, ok_bind]
                    simp only
                    rw [if_neg hmss, hbseq, ok_bind, if_neg hms, if_pos hpssq,
                      if_pos (show m > 0 by omega),
                      upwaveM_mono_le (Nat.le_max_left F1 F2) hup1 ok_ne_fuelOut,
                      ok_bind]
                    exact upwaveM_mono_le (Nat.le_max_right F1 F2) hup2
                      ok_ne_fuelOut
                  · exact rearr_trans hre2e (rearr_trans
                      (rearr_mono hre3 (le_refl s) (by omega) (by omega))
                      (rearr_mono hre4 (by omega) (le_refl e) (by omega)))
                  · have hlt3 : ∀ u, s ≤ u → u ≤ m - 1 → a3 u < piv :=
                      rearr_all_mem (P := fun x => x < piv) hre3 (fun u h1 h2 => hDlt u h1 (by omega))
                    have hge2 : ∀ u, m + 1 ≤ u → u ≤ e → piv ≤ a2 u := by
                      intro u h1 h2
                      rcases le_or_lt u p with h | h
                      · exact hBge u (by omega) h
                      · exact hCge u (by omega) h2
                    have hge3 : ∀ u, m + 1 ≤ u → u ≤ e → piv ≤ a3 u := by
                      intro u h1 h2
                      rw [hre3.1 u (Or.inr (by omega))]
                      exact hge2 u h1 h2
                    have hge4 : ∀ u, m + 1 ≤ u → u ≤ e → piv ≤ a4 u :=
                      rearr_all_mem (P := fun x => piv ≤ x) hre4 hge3
                    have ha4m : a4 m = piv := by
                      rw [hre4.1 m (Or.inl (by omega)),
                        hre3.1 m (Or.inr (by omega)), ← hqm, ha2q]
                    have hs3' : SortedOn a4 s (m - 1) := sortedOn_congr
                      (fun k h1 h2 => (hre4.1 k (Or.inl (by omega))).symm) hs3
                    have hsm : SortedOn a4 s m := by
                      refine sortedOn_join (q := m - 1) hs3' ?_ ?_
                      · exact sortedOn_trivial (by omega)
                      · rw [show m - 1 + 1 = m by omega, ha4m]
                        refine le_of_lt ?_
                        have := hlt3 (m - 1) (by omega) (le_refl _)
                        rw [hre4.1 (m - 1) (Or.inl (by omega))]
                        exact this
                    refine sortedOn_join (q := m) hsm hs4 ?_
                    rw [ha4m]
                    exact hge4 (m + 1) (le_refl _) (by omega)
                · -- both sides nonempty: downwave both
                  have hpgt : ss < p := by omega
                  have hple : p + 1 ≤ e := by omega
                  obtain ⟨F1, a3, hd1, hre3, hs3⟩ := ihd n a2 s m (q - 1)
                    (by omega) hm1 (by omega) (by omega)
                    (sortedOn_mono hA (le_refl m) (by omega))
                  have hsT3 : SortedOn a3 (p + 1) e := sortedOn_congr
                    (fun k h1 h2 => (hre3.1 k (Or.inr (by omega))).symm)
                    hsortedTail
                  obtain ⟨F2, a4, hd2, hre4, hs4⟩ := ihd n a3 (q + 1) (p + 1) e
                    (by omega) (by omega) (by omega) hen hsT3
                  refine ⟨max F1 F2 + 1, a4, ?_, ?_, ?_⟩
                  · simp only [downwaveM]
                    rw [if_neg hss, show csub e s = .ok (e - s) from
                      by simp [csub]; omega, ok_bind, if_neg hth,
                      show csub e ss = .ok (e - ss) from by simp [csub]; omega,
                      ok_bind, ← hp, hpart, ok_bind]
                    simp only
                    rw [if_neg hmss, hbseq, ok_bind, if_neg hms, if_neg hpssq,
                      show csub p ss = .ok (p - ss) from by simp [csub]; omega,
                      ok_bind, ← hq, if_pos (show q > 0 by omega),
                      downwaveM_mono_le (Nat.le_max_left F1 F2) hd1 ok_ne_fuelOut,
                      ok_bind]
                    exact downwaveM_mono_le (Nat.le_max_right F1 F2) hd2
                      ok_ne_fuelOut
                  · exact rearr_trans hre2e (rearr_trans
                      (rearr_mono hre3 (le_refl s) (by omega) (by omega))
                      (rearr_mono hre4 (by omega) (le_refl e) (by omega)))
                  · have hle2 : ∀ u, s ≤ u → u ≤ q - 1 → a2 u ≤ piv := by
                      intro u h1 h2
                      rcases Nat.lt_or_ge u m with h | h
                      · exact le_of_lt (hDlt u h1 h)
                      · exact hAle u h (by omega)
                    have hle3 : ∀ u, s ≤ u → u ≤ q - 1 → a3 u ≤ piv :=
                      rearr_all_mem (P := fun x => x ≤ piv) hre3 hle2
                    have hge3 : ∀ u, q + 1 ≤ u → u ≤ e → piv ≤ a3 u := by
                      intro u h1 h2
                      rw [hre3.1 u (Or.inr (by omega))]
                      rcases le_or_lt u p with h | h
                      · exact hBge u h1 h
                      · exact hCge u (by omega) h2
                    have hge4 : ∀ u, q + 1 ≤ u → u ≤ e → piv ≤ a4 u :=
                      rearr_all_mem (P := fun x => piv ≤ x) hre4 hge3
                    have ha4q : a4 q = piv := by
                      rw [hre4.1 q (Or.inl (by omega)),
                        hre3.1 q (Or.inr (by omega)), ha2q]
                    have hs3' : SortedOn a4 s (q - 1) := sortedOn_congr
                      (fun k h1 h2 => (hre4.1 k (Or.inl (by omega))).symm) hs3
                    have hsq : SortedOn a4 s q := by
                      refine sortedOn_join (q := q - 1) hs3' ?_ ?_
                      · exact sortedOn_trivial (by omega)
                      · rw [show q - 1 + 1 = q by omega, ha4q]
                        have := hle3 (q - 1) (by omega) (le_refl _)
                        rw [hre4.1 (q - 1) (Or.inl (by omega))]
                        exact this
                    refine sortedOn_join (q := q) hsq hs4 ?_
                    rw [ha4q]
                    exact hge4 (q + 1) (le_refl _) (by omega)
      · -- upwave
        intro n a s e hNu hse hen
        by_cases hs : s = e
        · refine ⟨1, a, ?_, rearr_refl _ _ _, sortedOn_trivial (by omega)⟩
          simp [upwaveM, if_pos hs]
        · by_cases hth : e - s ≤ insertionThreshold
          · obtain ⟨a', heq, hre, hs'⟩ := insRange_spec n a s e (by omega) hen
            refine ⟨1, a', ?_, hre, hs'⟩
            simp only [upwaveM]
            rw [if_neg hs, show csub e s = .ok (e - s) from by simp [csub]; omega,
              ok_bind, if_pos hth]
            exact heq
          · have hslt : s < e := by omega
            have he0 : ¬e = 0 := by omega
            have loopLem : ∀ B lb aL ssL, lb < B → s ≤ lb → lb ≤ ssL →
                ssL ≤ e → SortedOn aL ssL e →
                ∃ fuel a', upLoopM fuel n aL s e (e - s + 1) ssL lb = .ok a' ∧
                  Rearr s e aL a' ∧ SortedOn a' s e := by
              intro B
              induction B with
              | zero =>
                  intro lb aL ssL hB
                  omega
              | succ B ihB =>
                  intro lb aL ssL hB h1 h2 h3 hsL
                  obtain ⟨F1, a1, hd1, hre1, hs1⟩ := ihd n aL lb ssL e
                    (by omega) h2 h3 hen hsL
                  by_cases hbrk : e - s + 1 < (e - lb + 1) * 4
                  · obtain ⟨F2, a2, hd2, hre2, hs2⟩ := ihd n a1 s lb e
                      (by omega) h1 (by omega) hen hs1
                    refine ⟨max F1 F2 + 1, a2, ?_, ?_, hs2⟩
                    · simp only [upLoopM]
                      rw [downwaveM_mono_le (Nat.le_max_left F1 F2) hd1
                        ok_ne_fuelOut, ok_bind,
                        show csub e lb = .ok (e - lb) from by simp [csub]; omega,
                        ok_bind, if_pos hbrk]
                      exact downwaveM_mono_le (Nat.le_max_right F1 F2) hd2
                        ok_ne_fuelOut
                    · exact rearr_trans
                        (rearr_mono hre1 h1 (le_refl e) (by omega)) hre2
                  · by_cases hlbs : lb = s
                    · obtain ⟨F2, a2, hd2, hre2, hs2⟩ := ihd n a1 s lb e
                        (by omega) h1 (by omega) hen hs1
                      refine ⟨max F1 F2 + 1, a2, ?_, ?_, hs2⟩
                      · simp only [upLoopM]
                        rw [downwaveM_mono_le (Nat.le_max_left F1 F2) hd1
                          ok_ne_fuelOut, ok_bind,
                          show csub e lb = .ok (e - lb) from
                            by simp [csub]; omega,
                          ok_bind, if_neg hbrk, if_pos hlbs]
                        exact downwaveM_mono_le (Nat.le_max_right F1 F2) hd2
                          ok_ne_fuelOut
                      · exact rearr_trans
                          (rearr_mono hre1 h1 (le_refl e) (by omega)) hre2
                    · have hlbgt : s < lb := by omega
                      set ne2 := (e - lb + 1) * 2 + 1 with hne2
                      set L1 := if e < ne2 then s else if e - ne2 < s then s
                        else e - ne2 with hL1
                      set L2 := if L1 < s then s else L1 with hL2
                      have hL2s : s ≤ L2 := by
                        rw [hL2, hL1, hne2]
                        split_ifs <;> omega
                      have hL2lt : L2 < lb := by
                        rw [hL2, hL1, hne2]
                        split_ifs <;> omega
                      obtain ⟨FL, a2, hLoop, hreL, hsL2⟩ := ihB L2 a1 lb
                        (by omega) hL2s (by omega) (by omega) hs1
                      refine ⟨max F1 FL + 1, a2, ?_, ?_, hsL2⟩
                      · simp only [upLoopM]
                        rw [downwaveM_mono_le (Nat.le_max_left F1 FL) hd1
                          ok_ne_fuelOut, ok_bind,
                          show csub e lb = .ok (e - lb) from
                            by simp [csub]; omega,
                          ok_bind, if_neg hbrk, if_neg hlbs, ← hne2, ← hL1,
                          ← hL2]
                        exact upLoopM_mono_le (Nat.le_max_right F1 FL) hLoop
                          ok_ne_fuelOut
                      · exact rearr_trans
                          (rearr_mono hre1 h1 (le_refl e) (by omega)) hreL
            obtain ⟨FL, aF, hLoop, hreL, hsF⟩ := loopLem e (e - 1) a e
              (by omega) (by omega) (by omega) (le_refl e)
              (sortedOn_trivial (le_refl e))
            refine ⟨FL + 1, aF, ?_, hreL, hsF⟩
            simp only [upwaveM]
            rw [if_neg hs, show csub e s = .ok (e - s) from by simp [csub]; omega,
              ok_bind, if_neg hth, if_neg he0, ok_bind]
            exact hLoop

/-! ## The top-level sort -/

/-- `sort` always succeeds with enough fuel, and its output is an
ascending rearrangement of the first `n` cells, the rest untouched. -/
lemma sortM_spec (n : Nat) (a : A) :
    ∃ fuel a', sortM fuel n a = .ok a' ∧
      (∀ k, k + 1 < n → a' k ≤ a' (k + 1)) ∧
      (win a' 0 n).Perm (win a 0 n) ∧
      (∀ k, n ≤ k → a' k = a k) := by
  by_cases h2 : n < 2
  · refine ⟨1, a, ?_, ?_, List.Perm.refl _, fun _ _ => rfl⟩
    · simp [sortM, if_pos h2]
    · intro k hk
      omega
  · by_cases hth : n ≤ insertionThreshold
    · obtain ⟨a', heq, hre, hs'⟩ := insRange_spec n a 0 (n - 1) (by omega)
        (by omega)
      refine ⟨1, a', ?_, ?_, ?_, ?_⟩
      · simp only [sortM]
        rw [if_neg h2, if_pos hth]
        exact heq
      · intro k hk
        exact hs' k (by omega) (by omega)
      · have hp2 := hre.2
        rw [show n - 1 + 1 - 0 = n by omega] at hp2
        exact hp2
      · intro k hk
        exact hre.1 k (Or.inr (by omega))
    · obtain ⟨fuel, a', heq, hre, hs'⟩ := (waveMain (2 * (n - 1) + 2)).2
        n a 0 (n - 1) (by omega) (by omega) (by omega)
      refine ⟨fuel, a', ?_, ?_, ?_, ?_⟩
      · simp only [sortM]
        rw [if_neg h2, if_neg hth]
        exact heq
      · intro k hk
        exact hs' k (by omega) (by omega)
      · have hp2 := hre.2
        rw [show n - 1 + 1 - 0 = n by omega] at hp2
        exact hp2
      · intro k hk
        exact hre.1 k (Or.inr (by omega))

lemma sortM_mono {fuel n : Nat} {a : A} {r : M A} (heq : sortM fuel n a = r)
    (hne : r ≠ .error .fuelOut) : sortM (fuel + 1) n a = r := by
  simp only [sortM] at heq ⊢
  by_cases h2 : n < 2
  · rw [if_pos h2] at heq ⊢
    exact heq
  · rw [if_neg h2] at heq ⊢
    by_cases hth : n ≤ insertionThreshold
    · rw [if_pos hth] at heq ⊢
      exact heq
    · rw [if_neg hth] at heq ⊢
      exact (waveMono fuel).2.1 _ _ _ _ _ heq hne

lemma sortM_mono_le {f f' n : Nat} {a : A} {r : M A} (h : f ≤ f')
    (heq : sortM f n a = r) (hne : r ≠ .error .fuelOut) : sortM f' n a = r := by
  induction f' with
  | zero =>
      have he : f = 0 := by omega
      rw [← he]
      exact heq
  | succ f' ih =>
      rcases Nat.eq_or_lt_of_le h with he | hlt
      · rw [← he]
        exact heq
      · exact sortM_mono (ih (by omega)) hne

/-- Two successful runs of `sort`, at any fuels, agree. -/
lemma sortM_det {f1 f2 n : Nat} {a x y : A} (h1 : sortM f1 n a = .ok x)
    (h2 : sortM f2 n a = .ok y) : x = y := by
  have h1' : sortM (max f1 f2) n a = .ok x :=
    sortM_mono_le (Nat.le_max_left _ _) h1 ok_ne_fuelOut
  have h2' : sortM (max f1 f2) n a = .ok y :=
    sortM_mono_le (Nat.le_max_right _ _) h2 ok_ne_fuelOut
  rw [h1'] at h2'
  exact Except.ok.inj h2'

/-- A successful run of `sort` yields the canonical result: sorted,
a permutation of the input window, untouched beyond it. -/
lemma sortM_ok_spec {fuel n : Nat} {a a' : A} (heq : sortM fuel n a = .ok a') :
    (∀ k, k + 1 < n → a' k ≤ a' (k + 1)) ∧
      (win a' 0 n).Perm (win a 0 n) ∧ (∀ k, n ≤ k → a' k = a k) := by
  obtain ⟨F, b, hb, hs, hperm, hfr⟩ := sortM_spec n a
  have he : a' = b := sortM_det heq hb
  rw [he]
  exact ⟨hs, hperm, hfr⟩

/-- Two sorted stores over the same window that are permutations of each
other agree pointwise on the window. -/
lemma sorted_perm_ptwise {a b : A} {len : Nat}
    (hperm : (win b 0 len).Perm (win a 0 len))
    (hsa : ∀ k, k + 1 < len → a k ≤ a (k + 1))
    (hsb : ∀ k, k + 1 < len → b k ≤ b (k + 1)) :
    ∀ k, k < len → b k = a k := by
  have hwa : (win a 0 len).Sorted (· ≤ ·) := by
    rw [win_sorted_iff]
    intro t ht
    simpa using hsa t (by omega)
  have hwb : (win b 0 len).Sorted (· ≤ ·) := by
    rw [win_sorted_iff]
    intro t ht
    simpa using hsb t (by omega)
  have heq : win b 0 len = win a 0 len :=
    List.eq_of_perm_of_sorted hperm hwb hwa
  intro k hk
  simpa using win_eq_of_ptwise heq k hk

/-! ## Partition reads only its window and the pivot cell -/

lemma pOuter_okFrame (n : Nat) (piv : Int) :
    ∀ fuel (a : A) i j a' m, i ≤ j → (i = j → piv ≤ a i) → j < n →
    pOuter n piv fuel a i j = .ok (a', m) →
    ∀ k, k < i ∨ j ≤ k → a' k = a k := by
  intro fuel
  induction fuel with
  | zero =>
      intro a i j a' m _ _ _ ha
      simp [pOuter] at ha
  | succ fuel ih =>
      intro a i j a' m hij hg hjn ha k hk
      rcases pAdv_spec n a piv j hjn (j - i) i (le_refl _) hij hg with
        ⟨i', hA, hii', hi'j, hpiv, _⟩ | ⟨hA, hlt, _⟩
      · rcases pRet_spec n a piv i' j hi'j (by omega) with
          ⟨j', hR, hi'j', hj'j, hle, _⟩ | ⟨hR, _⟩
        · simp only [pOuter, hA, ok_bind, hR] at ha
          rw [if_pos ⟨show i' < n by omega, show j' < n by omega⟩] at ha
          have hgswap : i' = j' →
              piv ≤ Function.update (Function.update a i' (a j')) j' (a i') i' := by
            intro he
            rw [he, Function.update_same, ← he]
            exact hpiv
          have hstep := ih _ i' j' a' m hi'j' hgswap (by omega) ha k
            (by rcases hk with hk | hk
                · exact Or.inl (by omega)
                · exact Or.inr (by omega))
          rw [hstep, Function.update_noteq (show k ≠ j' by omega),
            Function.update_noteq (show k ≠ i' by omega)]
        · simp only [pOuter, hA, ok_bind, hR] at ha
          cases ha
          rfl
      · simp only [pOuter, hA, ok_bind] at ha
        cases ha
        rfl

lemma pAdv_congr (n : Nat) (a b : A) (piv : Int) (j : Nat) :
    ∀ d i, j - i ≤ d → i ≤ j → (i = j → piv ≤ a i) →
    (∀ k, i ≤ k → k ≤ j → a k = b k) →
    pAdv n a piv j i = pAdv n b piv j i := by
  intro d
  induction d with
  | zero =>
      intro i hd hij hg hab
      have he : i = j := by omega
      have hai : a i = b i := hab i (le_refl i) hij
      rw [pAdv]
      conv_rhs => rw [pAdv]
      by_cases hin : i < n
      · rw [dif_pos hin, dif_pos hin, ← hai, if_pos (hg he), if_pos (hg he)]
      · rw [dif_neg hin, dif_neg hin]
  | succ d ih =>
      intro i hd hij hg hab
      have hai : a i = b i := hab i (le_refl i) hij
      rw [pAdv]
      conv_rhs => rw [pAdv]
      by_cases hin : i < n
      · rw [dif_pos hin, dif_pos hin, ← hai]
        by_cases hbr : piv ≤ a i
        · rw [if_pos hbr, if_pos hbr]
        · rw [if_neg hbr, if_neg hbr]
          by_cases hnx : i + 1 = j
          · rw [if_pos hnx, if_pos hnx]
          · rw [if_neg hnx, if_neg hnx]
            have hij' : i < j := by
              rcases Nat.eq_or_lt_of_le hij with he | h
              · exact absurd (hg he) hbr
              · exact h
            exact ih (i + 1) (by omega) (by omega) (by omega)
              (fun k h1 h2 => hab k (by omega) h2)
      · rw [dif_neg hin, dif_neg hin]

lemma pRet_congr (n : Nat) (a b : A) (piv : Int) (i : Nat) :
    ∀ j, i ≤ j → (∀ k, i ≤ k → k ≤ j → a k = b k) →
    pRet n a piv i j = pRet n b piv i j := by
  intro j
  induction j with
  | zero =>
      intro hij hab
      simp [pRet]
  | succ j ih =>
      intro hij hab
      simp only [pRet]
      by_cases hst : j + 1 = i
      · rw [if_pos hst, if_pos hst]
      · rw [if_neg hst, if_neg hst]
        by_cases hjn : j < n
        · rw [if_pos hjn, if_pos hjn, ← hab j (by omega) (by omega)]
          by_cases hbr : a j ≤ piv
          · rw [if_pos hbr, if_pos hbr]
          · rw [if_neg hbr, if_neg hbr]
            exact ih (by omega) (fun k h1 h2 => hab k h1 (by omega))
        · rw [if_neg hjn, if_neg hjn]

lemma pOuter_congr (n : Nat) (piv : Int) :
    ∀ fuel (a b : A) i j, i ≤ j → (i = j → piv ≤ a i) → j < n →
    (∀ k, i ≤ k → k ≤ j → a k = b k) →
    ∀ {a' b' : A} {m m' : Nat}, pOuter n piv fuel a i j = .ok (a', m) →
      pOuter n piv fuel b i j = .ok (b', m') →
      m = m' ∧ ∀ k, i ≤ k → k ≤ j → a' k = b' k := by
  intro fuel
  induction fuel with
  | zero =>
      intro a b i j _ _ _ _ a' b' m m' ha
      simp [pOuter] at ha
  | succ fuel ih =>
      intro a b i j hij hg hjn hab a' b' m m' ha hb
      have hadv := pAdv_congr n a b piv j (j - i) i (le_refl _) hij hg hab
      rcases pAdv_spec n a piv j hjn (j - i) i (le_refl _) hij hg with
        ⟨i', hA, hii', hi'j, hpiv, _⟩ | ⟨hA, hlt, _⟩
      · rcases pRet_spec n a piv i' j hi'j (by omega) with
          ⟨j', hR, hi'j', hj'j, hle, _⟩ | ⟨hR, _⟩
        · -- both swap and loop
          have hret := pRet_congr n a b piv i' j hi'j
            (fun k h1 h2 => hab k (by omega) h2)
          simp only [pOuter, hA, ← hadv, hA, ok_bind, hR, ← hret, hR, ok_bind]
            at ha hb
          rw [if_pos ⟨show i' < n by omega, show j' < n by omega⟩] at ha hb
          set aS : A := Function.update (Function.update a i' (a j')) j' (a i')
            with haS
          set bS : A := Function.update (Function.update b i' (b j')) j' (b i')
            with hbS
          have hswab : ∀ k, i' ≤ k → k ≤ j' → aS k = bS k := by
            intro k h1 h2
            by_cases hkj : k = j'
            · rw [haS, hbS, hkj, Function.update_same, Function.update_same,
                hab i' (by omega) (by omega)]
            · rw [haS, hbS, Function.update_noteq hkj,
                Function.update_noteq hkj]
              by_cases hki : k = i'
              · rw [hki, Function.update_same, Function.update_same,
                  hab j' (by omega) (by omega)]
              · rw [Function.update_noteq hki, Function.update_noteq hki]
                exact hab k (by omega) (by omega)
          have hgswap : i' = j' → piv ≤ aS i' := by
            intro he
            rw [haS, he, Function.update_same, ← he]
            exact hpiv
          have hgswapb : i' = j' → piv ≤ bS i' := by
            intro he
            rw [← hswab i' (le_refl _) (by omega)]
            exact hgswap he
          obtain ⟨hm, hagree⟩ := ih aS bS i' j' hi'j' hgswap (by omega) hswab
            ha hb
          have hfa := pOuter_okFrame n piv fuel aS i' j' a' m hi'j' hgswap
            (by omega) ha
          have hfb := pOuter_okFrame n piv fuel bS i' j' b' m' hi'j' hgswapb
            (by omega) hb
          refine ⟨hm, ?_⟩
          intro k h1 h2
          rcases Nat.lt_or_ge k i' with hk | hk
          · rw [hfa k (Or.inl hk), hfb k (Or.inl hk), haS, hbS,
              Function.update_noteq (show k ≠ j' by omega),
              Function.update_noteq (show k ≠ i' by omega),
              Function.update_noteq (show k ≠ j' by omega),
              Function.update_noteq (show k ≠ i' by omega)]
            exact hab k h1 h2
          · rcases le_or_lt k j' with hk2 | hk2
            · exact hagree k hk hk2
            · rw [hfa k (Or.inr (by omega)), hfb k (Or.inr (by omega)), haS, hbS,
                Function.update_noteq (show k ≠ j' by omega),
                Function.update_noteq (show k ≠ i' by omega),
                Function.update_noteq (show k ≠ j' by omega),
                Function.update_noteq (show k ≠ i' by omega)]
              exact hab k h1 h2
        · -- retreat met advance: both return the split at once
          have hret := pRet_congr n a b piv i' j hi'j
            (fun k h1 h2 => hab k (by omega) h2)
          simp only [pOuter, hA, ← hadv, hA, ok_bind, hR, ← hret, hR, ok_bind]
            at ha hb
          cases ha
          cases hb
          exact ⟨rfl, fun k h1 h2 => hab k h1 h2⟩
      · simp only [pOuter, hA, ← hadv, hA, ok_bind] at ha hb
        cases ha
        cases hb
        exact ⟨rfl, fun k h1 h2 => hab k h1 h2⟩

/-- `partition` on `l < r ≤ n - 1` is insensitive to every cell outside
`[l, r] ∪ {p_idx}`: two stores agreeing there produce the same split and
the same window content. -/
lemma partitionM_congr (n : Nat) (a b : A) (l r p : Nat)
    (hlr : l < r) (hrn : r < n) (hpn : p < n)
    (hab : ∀ k, l ≤ k → k ≤ r → a k = b k) (hp : a p = b p) :
    ∃ a' b' m, partitionM n a l r p = .ok (a', m) ∧
      partitionM n b l r p = .ok (b', m) ∧
      (∀ k, l ≤ k → k ≤ r → a' k = b' k) := by
  obtain ⟨a', m, ha, _, _, _, _, _, _⟩ := partitionM_spec n a l r p hlr hrn hpn
  obtain ⟨b', m', hb, _, _, _, _, _, _⟩ := partitionM_spec n b l r p hlr hrn hpn
  have ha2 : pOuter n (a p) (r + 2 - l) a l r = .ok (a', m) := by
    simp only [partitionM, rd, if_pos hpn, pure_eq_ok, ok_bind] at ha
    exact ha
  have hb2 : pOuter n (a p) (r + 2 - l) b l r = .ok (b', m') := by
    simp only [partitionM, rd, if_pos hpn, pure_eq_ok, ok_bind] at hb
    rw [hp]
    exact hb
  obtain ⟨hm, hagree⟩ := pOuter_congr n (a p) (r + 2 - l) a b l r (by omega)
    (fun he => by omega) hrn hab ha2 hb2
  exact ⟨a', b', m, ha, hm ▸ hb, hagree⟩

lemma downwaveM_det {f1 f2 n : Nat} {a x y : A} {s ss e : Nat}
    (h1 : downwaveM f1 n a s ss e = .ok x) (h2 : downwaveM f2 n a s ss e = .ok y) :
    x = y := by
  have h1' : downwaveM (max f1 f2) n a s ss e = .ok x :=
    downwaveM_mono_le (Nat.le_max_left _ _) h1 ok_ne_fuelOut
  have h2' : downwaveM (max f1 f2) n a s ss e = .ok y :=
    downwaveM_mono_le (Nat.le_max_right _ _) h2 ok_ne_fuelOut
  rw [h1'] at h2'
  exact Except.ok.inj h2'

/-! ## Claims -/

/-- C1: for every finite array of integers, `sort` succeeds (with enough
fuel for its recursion), after it the array is ascending — every adjacent
pair satisfies `left ≤ right` — the multiset of the first `n` cells is
preserved (the window lists are permutations of one another), and no cell
beyond the array is touched (the sort is an in-place permutation). -/
theorem c1_sort_sorts_and_permutes :
    ∀ n (a : A), ∃ fuel a', sortM fuel n a = .ok a' ∧
      (∀ k, k + 1 < n → a' k ≤ a' (k + 1)) ∧
      (win a' 0 n).Perm (win a 0 n) ∧
      (∀ k, n ≤ k → a' k = a k) := by
  intro n a
  exact sortM_spec n a

/-- C2: if `arr[sorted_start ..= end]` is sorted ascending and
`start ≤ sorted_start ≤ end < n`, then `downwave` terminates (some fuel
returns `ok`), and every successful run leaves `arr[start ..= end]`
sorted ascending (and a rearrangement of what was there). -/
theorem c2_downwave_sorts (n : Nat) (a : A) (s ss e : Nat)
    (h1 : s ≤ ss) (h2 : ss ≤ e) (h3 : e < n) (h4 : SortedOn a ss e) :
    (∃ fuel a', downwaveM fuel n a s ss e = .ok a') ∧
    (∀ fuel a', downwaveM fuel n a s ss e = .ok a' →
      SortedOn a' s e ∧ Rearr s e a a') := by
  obtain ⟨F, b, hb, hre, hsb⟩ :=
    (waveMain (2 * (e - s) + 1)).1 n a s ss e (le_refl _) h1 h2 h3 h4
  refine ⟨⟨F, b, hb⟩, ?_⟩
  intro fuel a' ha'
  have he : a' = b := downwaveM_det ha' hb
  rw [he]
  exact ⟨hsb, hre⟩

/-- C2 witness: the trivial window `[0, 0]` of a one-cell array. -/
theorem c2_downwave_sorts_witness :
    (0 : Nat) ≤ 0 ∧ (0 : Nat) ≤ 0 ∧ (0 : Nat) < 1 ∧ SortedOn exId 0 0 ∧
      ((∃ fuel a', downwaveM fuel 1 exId 0 0 0 = .ok a') ∧
       (∀ fuel a', downwaveM fuel 1 exId 0 0 0 = .ok a' →
         SortedOn a' 0 0 ∧ Rearr 0 0 exId a')) :=
  ⟨le_refl 0, le_refl 0, by decide, fun k _ hk => absurd hk (by omega),
    c2_downwave_sorts 1 exId 0 0 0 (le_refl 0) (le_refl 0) (by decide)
      (fun k _ hk => absurd hk (by omega))⟩

/-- C3 counterexample: `partition([3, 0, -5], l = 0, r = 2, p_idx = 0)`
(pivot value `3`) returns split index `1` and the array `[0, 3, -5]`:
the cell at position `2 ∈ [m, r]` holds `-5 < 3`, violating the claimed
"every element at a position in `[m, r]` is `≥ v`" — position `r` is
never examined by the cursor loops. -/
theorem c3_counterexample :
    partitionM 3 exC3 0 2 0 =
        .ok (Function.update (Function.update exC3 0 (exC3 1)) 1 (exC3 0), 1) ∧
      Function.update (Function.update exC3 0 (exC3 1)) 1 (exC3 0) 2 = -5 ∧
      exC3 0 = 3 ∧ ¬ ((3 : Int) ≤ -5) := by
  refine ⟨?_, by decide, rfl, by decide⟩
  have h1 : pAdv 3 exC3 3 2 0 = .ok (.inl 0) := by
    rw [pAdv]
    rw [dif_pos (by decide : (0 : Nat) < 3),
      if_pos (by decide : (3 : Int) ≤ exC3 0)]
    rfl
  have h2 : pRet 3 exC3 3 0 2 = .ok (.inl 1) := by
    simp only [pRet]
    rw [if_neg (by decide : ¬(2 : Nat) = 0), if_pos (by decide : (1 : Nat) < 3),
      if_pos (by decide : exC3 1 ≤ 3)]
    rfl
  set b1 : A := Function.update (Function.update exC3 0 (exC3 1)) 1 (exC3 0)
    with hb1
  have hv0 : b1 0 = 0 := by
    rw [hb1, Function.update_noteq (by decide), Function.update_same]
    rfl
  have h3 : pAdv 3 b1 3 1 0 = .ok (.inr 1) := by
    rw [pAdv]
    rw [dif_pos (by decide : (0 : Nat) < 3), if_neg (by rw [hv0]; decide),
      if_pos rfl]
    rfl
  have hpiv : rd 3 exC3 0 = .ok 3 := rfl
  simp only [partitionM, hpiv, ok_bind]
  simp only [show (2 : Nat) + 2 - 0 = 4 from rfl, pOuter, h1, ok_bind, h2]
  rw [if_pos (⟨by decide, by decide⟩ : (0 : Nat) < 3 ∧ (1 : Nat) < 3)]
  simp only [pOuter, ← hb1, h3, ok_bind]
  rfl

/-- C3 amended: for `l < r ≤ n - 1` and a valid pivot index, `partition`
returns a split `m ∈ [l, r]` with every element at a position in `[l, m)`
at most the captured pivot value and every element at a position in
`[m, r)` — the cell at `r` itself excluded, it is neither read nor
written — at least the pivot value. -/
theorem c3_partition_split (n : Nat) (a : A) (l r p : Nat)
    (h1 : l < r) (h2 : r < n) (h3 : p < n) :
    ∃ a' m, partitionM n a l r p = .ok (a', m) ∧ l ≤ m ∧ m ≤ r ∧
      (∀ k, l ≤ k → k < m → a' k ≤ a p) ∧
      (∀ k, m ≤ k → k < r → a p ≤ a' k) := by
  obtain ⟨a', m, heq, hm1, hm2, _, _, hbel, habv⟩ :=
    partitionM_spec n a l r p h1 h2 h3
  exact ⟨a', m, heq, hm1, hm2,
    fun k hk1 hk2 => le_of_lt (hbel k hk1 hk2), habv⟩

/-- C3 witness: the amended statement at the counterexample's input. -/
theorem c3_partition_split_witness :
    (0 : Nat) < 2 ∧ (2 : Nat) < 3 ∧ (0 : Nat) < 3 ∧
      (∃ a' m, partitionM 3 exC3 0 2 0 = .ok (a', m) ∧ 0 ≤ m ∧ m ≤ 2 ∧
        (∀ k, 0 ≤ k → k < m → a' k ≤ exC3 0) ∧
        (∀ k, m ≤ k → k < 2 → exC3 0 ≤ a' k)) :=
  ⟨by decide, by decide, by decide,
    c3_partition_split 3 exC3 0 2 0 (by decide) (by decide) (by decide)⟩

/-- C4 counterexample: the window `[0, 32]` has length 33 > 32, yet with
`sorted_start = 1` the InsertionSort guard of `downwave` holds
(`end - start = 32 ≤ 32`) and `downwave` runs InsertionSort on it — with
only one unit of fuel, which no partition-path branch of this window
shape could complete on, `downwave` already equals the insertion sort of
the range. -/
theorem c4_counterexample :
    downInsGuard 0 1 32 ∧ (32 : Nat) + 1 - 0 = 33 ∧ ¬ ((32 : Nat) + 1 - 0 ≤ 32) ∧
      downwaveM 1 33 exId 0 1 32 = insRange 33 exId 0 32 := by
  refine ⟨⟨by decide, by decide, by decide⟩, rfl, by decide, ?_⟩
  simp only [downwaveM]
  rw [if_neg (show ¬(1 : Nat) = 0 by decide),
    show csub 32 0 = .ok 32 from rfl, ok_bind,
    if_pos (show (32 : Nat) ≤ insertionThreshold by decide)]

/-- C4 amended: the two routines run InsertionSort exactly when their
trivial first guard fails and `end - start ≤ 32`, i.e. on windows of
length up to 33 (not 32). -/
theorem c4_insertion_guard (f n : Nat) (a : A) (s ss e : Nat) :
    (downInsGuard s ss e ↔ (ss ≠ s ∧ s ≤ e ∧ e + 1 - s ≤ 33)) ∧
    (upInsGuard s e ↔ (s ≠ e ∧ s ≤ e ∧ e + 1 - s ≤ 33)) ∧
    (downInsGuard s ss e → downwaveM (f + 1) n a s ss e = insRange n a s e) ∧
    (upInsGuard s e → upwaveM (f + 1) n a s e = insRange n a s e) := by
  refine ⟨?_, ?_, ?_, ?_⟩
  · constructor
    · rintro ⟨hne, hle, hth⟩
      refine ⟨hne, hle, ?_⟩
      simp only [insertionThreshold] at hth
      omega
    · rintro ⟨hne, hle, hth⟩
      refine ⟨hne, hle, ?_⟩
      simp only [insertionThreshold]
      omega
  · constructor
    · rintro ⟨hne, hle, hth⟩
      refine ⟨hne, hle, ?_⟩
      simp only [insertionThreshold] at hth
      omega
    · rintro ⟨hne, hle, hth⟩
      refine ⟨hne, hle, ?_⟩
      simp only [insertionThreshold]
      omega
  · rintro ⟨hne, hle, hth⟩
    simp only [downwaveM]
    rw [if_neg hne, show csub e s = .ok (e - s) from by simp [csub]; omega,
      ok_bind, if_pos hth]
  · rintro ⟨hne, hle, hth⟩
    simp only [upwaveM]
    rw [if_neg hne, show csub e s = .ok (e - s) from by simp [csub]; omega,
      ok_bind, if_pos hth]

/-- C4 witness: the amended statement at a length-33 window. -/
theorem c4_insertion_guard_witness :
    downInsGuard 0 1 32 ∧ downwaveM 1 33 exId 0 1 32 = insRange 33 exId 0 32 := by
  refine ⟨⟨by decide, by decide, by decide⟩, ?_⟩
  exact (c4_insertion_guard 0 33 exId 0 1 32).2.2.1 ⟨by decide, by decide, by decide⟩

/-- C5 counterexample: `partition` does read outside `[l, r]` — it reads
the pivot cell `p_idx`, which the callers place beyond `r`.  The stores
`[5, 0, 3]` and `[5, 0, 10]` agree on the window `[0, 1]`, yet
`partition(·, 0, 1, 2)` returns split 0 on the first and split 1 on the
second. -/
theorem c5_counterexample : ¬ PartitionSplitDependsOnlyOnWindow := by
  intro h
  have ha : (partitionM 3 exC5a 0 1 2).map Prod.snd = Except.ok 0 := by
    have h1 : pAdv 3 exC5a 3 1 0 = .ok (.inl 0) := by
      rw [pAdv]
      rw [dif_pos (by decide : (0 : Nat) < 3),
        if_pos (by decide : (3 : Int) ≤ exC5a 0)]
      rfl
    have h2 : pRet 3 exC5a 3 0 1 = .ok (.inr 0) := by
      simp only [pRet]
      rw [if_neg (by decide : ¬(1 : Nat) = 0), if_pos (by decide : (0 : Nat) < 3),
        if_neg (by decide : ¬exC5a 0 ≤ 3)]
      simp
    have hpiv : rd 3 exC5a 2 = .ok 3 := rfl
    simp only [partitionM, hpiv, ok_bind]
    simp only [show (1 : Nat) + 2 - 0 = 3 from rfl, pOuter, h1, ok_bind, h2]
    rfl
  have hb : (partitionM 3 exC5b 0 1 2).map Prod.snd = Except.ok 1 := by
    have h1 : pAdv 3 exC5b 10 1 0 = .ok (.inr 1) := by
      rw [pAdv]
      rw [dif_pos (by decide : (0 : Nat) < 3),
        if_neg (by decide : ¬(10 : Int) ≤ exC5b 0), if_pos rfl]
      rfl
    have hpiv : rd 3 exC5b 2 = .ok 10 := rfl
    simp only [partitionM, hpiv, ok_bind]
    simp only [show (1 : Nat) + 2 - 0 = 3 from rfl, pOuter, h1, ok_bind]
    rfl
  have h2 := h 3 exC5a exC5b 0 1 2 (fun k hk1 hk2 => by
    interval_cases k <;> rfl)
  rw [ha, hb] at h2
  exact absurd (Except.ok.inj h2) (by decide)

/-- C5 amended: for the shapes the sort produces (`l < r < n`, `p < n`),
`partition` writes nothing outside `[l, r]` — in fact nothing outside
`[l, r)` — and reads only `[l, r]` and the pivot cell `p`: two stores
agreeing there yield the same split and the same window contents. -/
theorem c5_partition_window (n : Nat) (a b : A) (l r p : Nat)
    (h1 : l < r) (h2 : r < n) (h3 : p < n)
    (hab : ∀ k, l ≤ k → k ≤ r → a k = b k) (hp : a p = b p) :
    ∃ a' b' m, partitionM n a l r p = .ok (a', m) ∧
      partitionM n b l r p = .ok (b', m) ∧
      (∀ k, l ≤ k → k ≤ r → a' k = b' k) ∧
      (∀ k, k < l ∨ r ≤ k → a' k = a k ∧ b' k = b k) := by
  obtain ⟨a', b', m, ha, hb, hagree⟩ :=
    partitionM_congr n a b l r p h1 h2 h3 hab hp
  obtain ⟨a0, m0, ha0, _, _, hfa, _, _, _⟩ := partitionM_spec n a l r p h1 h2 h3
  obtain ⟨b0, m0', hb0, _, _, hfb, _, _, _⟩ := partitionM_spec n b l r p h1 h2 h3
  rw [ha] at ha0
  rw [hb] at hb0
  refine ⟨a', b', m, ha, hb, hagree, ?_⟩
  intro k hk
  have hpa := Except.ok.inj ha0
  have hpb := Except.ok.inj hb0
  constructor
  · rw [show a' = a0 from congrArg Prod.fst hpa]
    exact hfa k hk
  · rw [show b' = b0 from congrArg Prod.fst hpb]
    exact hfb k hk

/-- C5 witness: the amended statement with both stores equal. -/
theorem c5_partition_window_witness :
    (0 : Nat) < 1 ∧ (1 : Nat) < 3 ∧ (2 : Nat) < 3 ∧
      (∃ a' b' m, partitionM 3 exC5a 0 1 2 = .ok (a', m) ∧
        partitionM 3 exC5a 0 1 2 = .ok (b', m) ∧
        (∀ k, 0 ≤ k → k ≤ 1 → a' k = b' k) ∧
        (∀ k, k < 0 ∨ 1 ≤ k → a' k = exC5a k ∧ b' k = exC5a k)) :=
  ⟨by decide, by decide, by decide,
    c5_partition_window 3 exC5a exC5a 0 1 2 (by decide) (by decide) (by decide)
      (fun k _ _ => rfl) rfl⟩

/-- C6: for `m ≤ r ≤ p < n`, `block_swap` rotates `arr[m ..= p]` left by
`L = r - m`: the old `arr[r ..= p]` lands at `m` and the old left block
`arr[m .. r)` lands immediately after it; the window is permuted (nothing
dropped or duplicated), cells outside `[m, p]` are untouched, and
`L = 0` is a no-op. -/
theorem c6_block_swap (n : Nat) (a : A) (m r p : Nat)
    (h1 : m ≤ r) (h2 : r ≤ p) (h3 : p < n) :
    ∃ a', blockSwapM n a m r p = .ok a' ∧
      (∀ t, t < p + 1 - r → a' (m + t) = a (r + t)) ∧
      (∀ t, t < r - m → a' (m + (p + 1 - r) + t) = a (m + t)) ∧
      (win a' m (p + 1 - m)).Perm (win a m (p + 1 - m)) ∧
      (∀ k, k < m ∨ p < k → a' k = a k) ∧
      (r = m → a' = a) := by
  obtain ⟨a', heq, hfr, hs1, hs2, hperm, hnoop⟩ := blockSwapM_spec n a m r p h1 h2 h3
  exact ⟨a', heq, hs1, hs2, hperm, hfr, hnoop⟩

/-- C6 witness: rotate `[2, 8]` of the identity store left by 3. -/
theorem c6_block_swap_witness :
    (2 : Nat) ≤ 5 ∧ (5 : Nat) ≤ 8 ∧ (8 : Nat) < 10 ∧
      (∃ a', blockSwapM 10 exId 2 5 8 = .ok a' ∧
        (∀ t, t < 8 + 1 - 5 → a' (2 + t) = exId (5 + t)) ∧
        (∀ t, t < 5 - 2 → a' (2 + (8 + 1 - 5) + t) = exId (2 + t)) ∧
        (win a' 2 (8 + 1 - 2)).Perm (win exId 2 (8 + 1 - 2)) ∧
        (∀ k, k < 2 ∨ 8 < k → a' k = exId k) ∧
        ((5 : Nat) = 2 → a' = exId)) :=
  ⟨by decide, by decide, by decide,
    c6_block_swap 10 exId 2 5 8 (by decide) (by decide) (by decide)⟩

/-- C7: `sort` never faults: no array access is out of bounds and no
index computation underflows — a run either succeeds or merely runs out
of the fuel that models the recursion (never `oob` or `uflow`). -/
theorem c7_sort_never_faults :
    ∀ n (a : A) fuel, sortM fuel n a = .error .fuelOut ∨
      ∃ a', sortM fuel n a = .ok a' := by
  intro n a fuel
  rcases hr : sortM fuel n a with f | a'
  · cases f with
    | oob =>
        obtain ⟨F, b, hb, _, _, _⟩ := sortM_spec n a
        have h1 : sortM (max fuel F) n a = .error .oob :=
          sortM_mono_le (Nat.le_max_left _ _) hr (by
            intro hc
            exact absurd (Except.error.inj hc) (by decide))
        have h2 : sortM (max fuel F) n a = .ok b :=
          sortM_mono_le (Nat.le_max_right _ _) hb ok_ne_fuelOut
        rw [h1] at h2
        cases h2
    | uflow =>
        obtain ⟨F, b, hb, _, _, _⟩ := sortM_spec n a
        have h1 : sortM (max fuel F) n a = .error .uflow :=
          sortM_mono_le (Nat.le_max_left _ _) hr (by
            intro hc
            exact absurd (Except.error.inj hc) (by decide))
        have h2 : sortM (max fuel F) n a = .ok b :=
          sortM_mono_le (Nat.le_max_right _ _) hb ok_ne_fuelOut
        rw [h1] at h2
        cases h2
    | fuelOut => exact Or.inl rfl
  · exact Or.inr ⟨a', rfl⟩

/-- C8: `sort` terminates on every finite array: some amount of fuel —
the fuel models the depth of the mutual `downwave`/`upwave` recursion,
which the proof of `waveMain` bounds by the strictly shrinking window
widths — makes it return. -/
theorem c8_sort_terminates : ∀ n (a : A), ∃ fuel a', sortM fuel n a = .ok a' := by
  intro n a
  obtain ⟨fuel, a', heq, _, _, _⟩ := sortM_spec n a
  exact ⟨fuel, a', heq⟩

/-- C9: `sort` is idempotent: a successful run on an already ascending
array changes no cell, and a successful run on the output of a successful
run changes no cell. -/
theorem c9_sort_idempotent :
    (∀ n (a : A) fuel a', (∀ k, k + 1 < n → a k ≤ a (k + 1)) →
      sortM fuel n a = .ok a' → ∀ k, a' k = a k) ∧
    (∀ n (a : A) f1 f2 b c, sortM f1 n a = .ok b → sortM f2 n b = .ok c →
      ∀ k, c k = b k) := by
  constructor
  · intro n a fuel a' hsa heq k
    obtain ⟨hs', hperm, hfr⟩ := sortM_ok_spec heq
    rcases Nat.lt_or_ge k n with hk | hk
    · exact sorted_perm_ptwise hperm hsa hs' k hk
    · exact hfr k hk
  · intro n a f1 f2 b c h1 h2 k
    obtain ⟨hsb, _, _⟩ := sortM_ok_spec h1
    obtain ⟨hsc, hperm, hfr⟩ := sortM_ok_spec h2
    rcases Nat.lt_or_ge k n with hk | hk
    · exact sorted_perm_ptwise hperm hsb hsc k hk
    · exact hfr k hk

/-- C9 witness: sorting the ascending two-cell store leaves it unchanged. -/
theorem c9_sort_idempotent_witness :
    (∀ k, k + 1 < 2 → exId k ≤ exId (k + 1)) ∧
      sortM 1 2 exId = .ok (Function.update exId 1 1) ∧
      (∀ k, Function.update exId 1 1 k = exId k) := by
  have hrun : sortM 1 2 exId = .ok (Function.update exId 1 1) := by
    simp [sortM, insRange, insLoop, insStep, insShift, rdR, wrR, exId,
      insertionThreshold]
  refine ⟨?_, hrun, ?_⟩
  · intro k hk
    simp only [exId]
    exact_mod_cast Nat.le_succ k
  · intro k
    exact c9_sort_idempotent.1 2 exId 1 (Function.update exId 1 1)
      (fun k hk => by
        simp only [exId]
        exact_mod_cast Nat.le_succ k) hrun k

/-- C10: whenever a `downwave` or `upwave` call (with its documented
index preconditions) returns, every cell before `start` and after `end`
is unchanged; consequently `sort` changes nothing at or beyond the
array's length. -/
theorem c10_wave_frame :
    (∀ fuel n (a : A) s ss e a', s ≤ ss → ss ≤ e → e < n →
      downwaveM fuel n a s ss e = .ok a' → ∀ k, k < s ∨ e < k → a' k = a k) ∧
    (∀ fuel n (a : A) s e a', s ≤ e → e < n →
      upwaveM fuel n a s e = .ok a' → ∀ k, k < s ∨ e < k → a' k = a k) ∧
    (∀ fuel n (a : A) a', sortM fuel n a = .ok a' → ∀ k, n ≤ k → a' k = a k) := by
  refine ⟨fun fuel => (waveFrame fuel).1, fun fuel => (waveFrame fuel).2.1, ?_⟩
  intro fuel n a a' heq k hk
  exact (sortM_ok_spec heq).2.2 k hk

/-- C10 witness: the trivial `downwave` call on a one-cell array. -/
theorem c10_wave_frame_witness :
    (0 : Nat) ≤ 0 ∧ (0 : Nat) < 1 ∧ downwaveM 1 1 exId 0 0 0 = .ok exId ∧
      (∀ k, k < 0 ∨ 0 < k → exId k = exId k) := by
  have hrun : downwaveM 1 1 exId 0 0 0 = .ok exId := by simp [downwaveM]
  exact ⟨le_refl 0, by decide, hrun,
    c10_wave_frame.1 1 1 exId 0 0 0 exId (le_refl 0) (le_refl 0) (by decide)
      hrun⟩

end WaveSort
